import Mathlib

/-!
The size histogram, its report and the database specification parser of
dbkeys.

A shallow embedding of `scripts/dbkeys/dbkeys.go`.

* Go's `int` is taken as the 64-bit two's-complement integer: values are
  `Int`s and every addition the program performs is wrapped by `wrapInt`.
* A Go string is the list of its bytes.
* The unbounded `for` loop of `addSample` is run with a step budget: the
  outcome `running` records the loop state when the budget is used up, the
  outcome `fault` stands for a run-time panic (integer division by zero,
  index out of range).
* A finite `float64` is the rational number it denotes; the conversions and
  operations of `WriteTo` round to 53 significant bits, to nearest, ties to
  even. The values that occur there (Go `int`s, their products with 20 and the
  quotients of these) stay within the range of normal `float64` numbers, so
  overflow and subnormal numbers are left out.
* The report of `WriteTo` is the list of its lines, each given by the
  `Fprintf` call that writes it and the values that are formatted.
* The store cursor is the list of the (key, value) pairs it yields, together
  with the error of its `Close`.
-/

namespace Dbkeys

/-! ## Machine integers -/

/-- Two's-complement wrap-around of Go's 64-bit `int`. -/
def wrapInt (x : Int) : Int := (x + 2 ^ 63) % 2 ^ 64 - 2 ^ 63

/-- The values a Go `int` can hold. -/
def isInt (x : Int) : Prop := -(2 ^ 63) ≤ x ∧ x < 2 ^ 63

instance (x : Int) : Decidable (isInt x) := by
  unfold isInt; infer_instance

/-! ## The histogram (dbkeys.go, lines 78-109) -/

/-- The Go struct `histogram`; a zero value has every field 0 and no bucket. -/
structure histogram where
  samples : Int := 0
  sum : Int := 0
  max : Int := 0
  base : Int := 0
  buckets : List Int := []
deriving DecidableEq, Repr

/-- How a call of `addSample` stands after a bounded number of loop
iterations: it has returned with the histogram `h`; or it is at the top of
the loop with histogram `h`, index `i` and value `v`; or it has panicked. -/
inductive Outcome where
  | returned (h : histogram)
  | running (h : histogram) (i : Nat) (v : Int)
  | fault
deriving DecidableEq, Repr

/-- The loop `for i := 0; ; i++ { ... }` of `addSample`, entered at index `i`
with value `v`, run for at most `fuel` iterations. The index is a natural
number: every iteration beyond the length of `buckets` appends a bucket, so
memory runs out long before `i` leaves the range of `int`. The quotient
`v / h.base` is Go's truncated division. -/
def addSampleLoop : Nat → histogram → Nat → Int → Outcome
  | 0, h, i, v => .running h i v
  | fuel + 1, h, i, v =>
    let h1 := if h.buckets.length ≤ i then { h with buckets := h.buckets ++ [0] } else h
    if h1.base = 0 then .fault
    else
      let w := wrapInt (v.tdiv h1.base)
      if w = 0 then
        if i < h1.buckets.length then
          .returned { h1 with buckets := h1.buckets.set i (wrapInt (h1.buckets.getD i 0 + 1)) }
        else .fault
      else addSampleLoop fuel h1 (i + 1) w

/-- The method `addSample`, its loop run for at most `fuel` iterations. -/
def addSample (fuel : Nat) (h : histogram) (size : Int) : Outcome :=
  let h1 := { h with samples := wrapInt (h.samples + 1) }
  let h2 := { h1 with sum := wrapInt (h1.sum + size) }
  let h3 := if size > h2.max then { h2 with max := size } else h2
  let h4 := if h3.base ≤ 0 then { h3 with base := 4 } else h3
  addSampleLoop fuel h4 0 size

/-- The samples of a scan fed to `addSample` one after the other, as the loop
of `main` does with the value lengths (lines 53-58). A call that does not
return ends the run. -/
def addSamples (fuel : Nat) : histogram → List Int → Outcome
  | h, [] => .returned h
  | h, s :: rest =>
    match addSample fuel h s with
    | .returned h1 => addSamples fuel h1 rest
    | o => o

/-! ## The database specification (dbkeys.go, lines 68-76) -/

/-- A Go string: its bytes. -/
abbrev GoString := List UInt8

/-- The byte `':'`. -/
def colon : UInt8 := 58

/-- Go's `strings.IndexByte`: the position of the first byte `c` of `s`;
`none` stands for the result -1. -/
def IndexByte : GoString → UInt8 → Option Nat
  | [], _ => none
  | x :: xs, c => if x = c then some 0 else (IndexByte xs c).map (· + 1)

/-- The loop of Go's `strings.genSplit` for a one-byte separator: cut `s` at
the separator at most `k` times and end with the rest. -/
def genSplit (sep : UInt8) : Nat → GoString → List GoString
  | 0, s => [s]
  | k + 1, s =>
    match IndexByte s sep with
    | none => [s]
    | some m => s.take m :: genSplit sep k (s.drop (m + 1))

/-- Go's `strings.SplitN(s, sep, n)` for a one-byte separator and `n ≥ 0`:
no part for `n = 0`, otherwise at most `min n (len(s) + 1)` parts. -/
def SplitN (s : GoString) (sep : UInt8) (n : Nat) : List GoString :=
  if n = 0 then [] else genSplit sep (min n (s.length + 1) - 1) s

/-- The function `parseDatabaseSpec`: the triple it returns, the error being
`none` for Go's `nil`. The result `none` stands for a run-time panic (index
out of range on `parts`). -/
def parseDatabaseSpec (s : GoString) : Option (GoString × GoString × Option String) :=
  let parts := SplitN s colon 2
  if parts.length = 1 then
    some ([], [], some "invalid backend:path spec")
  else
    match parts[0]?, parts[1]? with
    | some p0, some p1 =>
      if p0 = [] ∨ p1 = [] then some ([], [], some "backend and path must be non-empty")
      else some (p0, p1, none)
    | _, _ => none

/-! ## Floating point -/

/-- Round to the nearest integer, a tie to the even one. -/
def roundHalfEven (m : ℚ) : Int :=
  if m - ⌊m⌋ < 1 / 2 then ⌊m⌋
  else if 1 / 2 < m - ⌊m⌋ then ⌊m⌋ + 1
  else if ⌊m⌋ % 2 = 0 then ⌊m⌋ else ⌊m⌋ + 1

/-- IEEE 754 binary64 rounding (53-bit significand, nearest, ties to even). -/
def roundFloat64 (q : ℚ) : ℚ :=
  if q = 0 then 0
  else (roundHalfEven (q / 2 ^ (Int.log 2 |q| - 52)) : ℚ) * 2 ^ (Int.log 2 |q| - 52)

/-- Go's conversion `float64(x)` of an `int`. -/
def float64OfInt (x : Int) : ℚ := roundFloat64 (x : ℚ)

/-- The float64 product. -/
def fmul (a b : ℚ) : ℚ := roundFloat64 (a * b)

/-- The float64 quotient; `none` when the divisor is zero (the result is then
an infinity or NaN). -/
def fdiv (a b : ℚ) : Option ℚ := if b = 0 then none else some (roundFloat64 (a / b))

/-- Go's conversion `int(f)` of a float64: the fraction is discarded; `none`
when the result does not fit an `int` (the language leaves it open). -/
def truncToInt (q : ℚ) : Option Int :=
  if isInt (if 0 ≤ q then ⌊q⌋ else ⌈q⌉) then some (if 0 ≤ q then ⌊q⌋ else ⌈q⌉) else none

/-! ## The report (dbkeys.go, lines 111-122) -/

/-- The byte `'='`. -/
def marker : UInt8 := 61

/-- Go's `strings.Repeat(s, count)`; `none` stands for its panic on a
negative count. -/
def Repeat (s : GoString) (count : Int) : Option GoString :=
  if count < 0 then none else some (List.flatten (List.replicate count.toNat s))

/-- A line of the report, by the `Fprintf` call that writes it, with the
values that are formatted. -/
inductive Line where
  /-- `"n = %d\n"` -/
  | n (samples : Int)
  /-- `"max = %d\n"` -/
  | max (max : Int)
  /-- `"avg = %.1f\n"`, with the float64 quotient; `none` for NaN or an infinity -/
  | avg (mean : Option ℚ)
  /-- `"[%d^i]\n"` -/
  | base (base : Int)
  /-- `"%-2d %-6d %s\n"` -/
  | bucket (level : Nat) (count : Int) (bar : GoString)
deriving DecidableEq

/-- The expression `int(20 * float64(v) / float64(h.samples))` of `WriteTo`. -/
def barIncr (v samples : Int) : Option Int :=
  match fdiv (fmul 20 (float64OfInt v)) (float64OfInt samples) with
  | none => none
  | some q => truncToInt q

/-- The loop `for i, v := range h.buckets` of `WriteTo`, from index `i` on;
`none` stands for a panic. -/
def bucketLines (samples : Int) : Nat → List Int → Option (List Line)
  | _, [] => some []
  | i, v :: vs =>
    match barIncr v samples with
    | none => none
    | some incr =>
      match Repeat [marker] incr with
      | none => none
      | some bar =>
        match bucketLines samples (i + 1) vs with
        | none => none
        | some rest => some (Line.bucket i v bar :: rest)

/-- The method `WriteTo`: the lines written to the buffer that is copied to
the writer; `none` stands for a panic. -/
def WriteTo (h : histogram) : Option (List Line) :=
  match bucketLines h.samples 0 h.buckets with
  | none => none
  | some ls =>
    some ([Line.n h.samples, Line.max h.max,
      Line.avg (fdiv (float64OfInt h.sum) (float64OfInt h.samples)), Line.base h.base] ++ ls)

/-! ## The key lines (dbkeys.go, line 56) -/

/-- The byte `'"'`. -/
def dquote : UInt8 := 34

/-- The byte for the backquote character. -/
def backquote : UInt8 := 96

/-- The byte `'\n'`. -/
def newline : UInt8 := 10

/-- Go's `utf8.RuneError`. -/
def RuneError : Nat := 0xFFFD

/-- Go's `utf8.DecodeRuneInString`: the first rune of `s` and its width in
bytes; `(RuneError, 0)` for the empty string and `(RuneError, 1)` for an
invalid encoding. The table `first` and the accept ranges of the library are
written as comparisons on the first byte. -/
def DecodeRuneInString (s : GoString) : Nat × Nat :=
  match s with
  | [] => (RuneError, 0)
  | s0 :: rest =>
    if s0.toNat < 0x80 then (s0.toNat, 1)
    else if s0.toNat < 0xC2 ∨ 0xF4 < s0.toNat then (RuneError, 1)
    else
      let sz := if s0.toNat < 0xE0 then 2 else if s0.toNat < 0xF0 then 3 else 4
      let lo := if s0.toNat = 0xE0 then 0xA0 else if s0.toNat = 0xF0 then 0x90 else 0x80
      let hi := if s0.toNat = 0xED then 0x9F else if s0.toNat = 0xF4 then 0x8F else 0xBF
      if s.length < sz then (RuneError, 1)
      else
        match rest with
        | [] => (RuneError, 1)
        | s1 :: rest1 =>
          if s1.toNat < lo ∨ hi < s1.toNat then (RuneError, 1)
          else if sz ≤ 2 then (s0.toNat % 32 * 64 + s1.toNat % 64, 2)
          else
            match rest1 with
            | [] => (RuneError, 1)
            | s2 :: rest2 =>
              if s2.toNat < 0x80 ∨ 0xBF < s2.toNat then (RuneError, 1)
              else if sz ≤ 3 then
                (s0.toNat % 16 * 4096 + s1.toNat % 64 * 64 + s2.toNat % 64, 3)
              else
                match rest2 with
                | [] => (RuneError, 1)
                | s3 :: _ =>
                  if s3.toNat < 0x80 ∨ 0xBF < s3.toNat then (RuneError, 1)
                  else
                    (s0.toNat % 8 * 262144 + s1.toNat % 64 * 4096 + s2.toNat % 64 * 64
                      + s3.toNat % 64, 4)

/-- The loop of Go's `strconv.CanBackquote`, run for at most `fuel`
iterations; every iteration takes at least one byte off `s`. -/
def CanBackquoteLoop : Nat → GoString → Bool
  | 0, s => s.isEmpty
  | fuel + 1, s =>
    if s.isEmpty then true
    else
      let r := (DecodeRuneInString s).1
      let wid := (DecodeRuneInString s).2
      if wid > 1 then
        if r = 0xFEFF then false else CanBackquoteLoop fuel (s.drop wid)
      else if r = RuneError then false
      else if (r < 0x20 ∧ r ≠ 0x09) ∨ r = 0x60 ∨ r = 0x7F then false
      else CanBackquoteLoop fuel (s.drop wid)

/-- Go's `strconv.CanBackquote`: whether `s` can stand unchanged between
backquotes: valid UTF-8 without a control character other than tab, without a
backquote and without U+FEFF. -/
def CanBackquote (s : GoString) : Bool := CanBackquoteLoop s.length s

/-- The verb `%#q` of Go's `fmt` on a string: the string itself between
backquotes when `strconv.CanBackquote` allows it, otherwise the result of
`strconv.Quote`, which is a double quote, the escaped string and a double
quote. The escaping (it depends on the Unicode tables of the library) is the
parameter `escape`. -/
def fmtSharpQ (escape : GoString → GoString) (s : GoString) : GoString :=
  if CanBackquote s then backquote :: s ++ [backquote]
  else dquote :: escape s ++ [dquote]

/-- The bytes `fmt.Printf("%#q\n", string(key))` writes. -/
def keyLine (escape : GoString → GoString) (key : GoString) : GoString :=
  fmtSharpQ escape key ++ [newline]

/-! ## The scan (dbkeys.go, lines 53-64) -/

/-- What is written to the standard output: the line of a key, or a line of
the report. -/
inductive Printed where
  | key (text : GoString)
  | report (l : Line)
deriving DecidableEq

/-- How the scan ends: `return nil`; `ctrl.Fatalf` with a message; or a call
that does not return or panics. -/
inductive Exit where
  | ok
  | fatal (msg : String)
  | stuck
deriving DecidableEq

/-- The loop `for it.Valid() { ... it.Next() }` of `main`, the cursor being the
list of the (key, value) pairs it yields: the key lines printed and the state
of the histogram. A call of `addSample` that does not return ends the run
before the key is printed. -/
def scanLoop (escape : GoString → GoString) (fuel : Nat) :
    histogram → List (GoString × GoString) → List Printed × Outcome
  | h, [] => ([], .returned h)
  | h, (k, v) :: rest =>
    match addSample fuel h (v.length : Int) with
    | .returned h1 =>
      (Printed.key (keyLine escape k) :: (scanLoop escape fuel h1 rest).1,
        (scanLoop escape fuel h1 rest).2)
    | o => ([], o)

/-- The flags of the program (lines 17-21) with their default values. -/
structure Flags where
  dbSpec : GoString := []
  statBase : Int := 4
  statBars : Int := 20

/-- Lines 53-64 of `main`: the histogram is created with the value of the
flag `-base`, the cursor is scanned and closed (`closeErr` is the error of
`it.Close()`, `none` for `nil`), and the report is written. -/
def scanDriver (escape : GoString → GoString) (fuel : Nat) (flags : Flags)
    (cursor : List (GoString × GoString)) (closeErr : Option String) : List Printed × Exit :=
  match scanLoop escape fuel { base := flags.statBase } cursor with
  | (keys, .returned h) =>
    match closeErr with
    | some e => (keys, .fatal ("Closing iterator: " ++ e))
    | none =>
      match WriteTo h with
      | some ls => (keys ++ ls.map Printed.report, .ok)
      | none => (keys, .stuck)
  | (keys, _) => (keys, .stuck)

/-! ## Definitions used in the statements and proofs -/

/-- The base the loop divides by: a configured base `≤ 0` is replaced by 4. -/
def usedBase (b : Int) : Int := if b ≤ 0 then 4 else b

/-- The bucket level of a size: the number of divisions by the base after
the first that still give a non-zero quotient. -/
def level (b size : Int) : Nat := Nat.log b.toNat size.toNat

/-- The bucket list with level `k` counted once more: the list is extended by
zero counts up to level `k` when it is shorter. -/
def bumpAt (k : Nat) (bs : List Int) : List Int :=
  (bs ++ List.replicate (k + 1 - bs.length) 0).set k
    (wrapInt ((bs ++ List.replicate (k + 1 - bs.length) 0).getD k 0 + 1))

/-- The histogram a returning call of `addSample` leaves, in closed form. -/
def addSampleSpec (h : histogram) (size : Int) : histogram :=
  { samples := wrapInt (h.samples + 1)
    sum := wrapInt (h.sum + size)
    max := if size > h.max then size else h.max
    base := usedBase h.base
    buckets := bumpAt (level (usedBase h.base) size) h.buckets }

/-- The sizes a scan can feed: non-negative Go `int`s. -/
def sizesOk (xs : List Int) : Prop := ∀ s ∈ xs, 0 ≤ s ∧ s < 2 ^ 63

/-- The histogram has counted `n` samples: `samples` is `n`, the bucket
counts are non-negative and add up to `n`. -/
def Counted (h : histogram) (n : Nat) : Prop :=
  h.samples = (n : Int) ∧ h.buckets.sum = (n : Int) ∧ ∀ x ∈ h.buckets, 0 ≤ x

/-- The last bucket of a non-empty bucket list holds at least one sample. -/
def LastCounted (h : histogram) : Prop :=
  h.buckets ≠ [] → 1 ≤ h.buckets.getD (h.buckets.length - 1) 0

/-! ## Facts on machine integers -/

theorem wrapInt_of_isInt {x : Int} (hx : isInt x) : wrapInt x = x := by
  unfold isInt at hx
  unfold wrapInt
  rw [Int.emod_eq_of_lt (by omega) (by omega)]
  omega

theorem isInt_wrapInt (x : Int) : isInt (wrapInt x) := by
  unfold isInt wrapInt
  have h1 := Int.emod_nonneg (x + 2 ^ 63) (show ((2 : Int) ^ 64) ≠ 0 by norm_num)
  have h2 := Int.emod_lt_of_pos (x + 2 ^ 63) (show (0 : Int) < 2 ^ 64 by norm_num)
  constructor <;> omega

theorem wrapInt_modEq (x : Int) : wrapInt x ≡ x [ZMOD 2 ^ 64] := by
  unfold wrapInt
  have h : (x + 2 ^ 63) % 2 ^ 64 ≡ x + 2 ^ 63 [ZMOD 2 ^ 64] := Int.mod_modEq _ _
  have h2 := h.sub_right (2 ^ 63)
  simpa using h2

/-! ## The closed form of `addSample` -/

theorem bumpAt_append_zero {k : Nat} {bs : List Int} (hk : bs.length < k) :
    bumpAt k (bs ++ [0]) = bumpAt k bs := by
  have e : k + 1 - bs.length = (k + 1 - (bs.length + 1)) + 1 := by omega
  unfold bumpAt
  simp only [List.length_append, List.length_singleton]
  rw [e, List.replicate_succ]
  simp

theorem addSampleLoop_closed (c : Nat) (hc : 2 ≤ c) :
    ∀ (fuel : Nat) (h : histogram) (i n : Nat), h.base = (c : Int) → (n : Int) < 2 ^ 63 →
      i ≤ h.buckets.length → Nat.log c n < fuel →
      addSampleLoop fuel h i (n : Int)
        = .returned { h with buckets := bumpAt (i + Nat.log c n) h.buckets } := by
  intro fuel
  induction fuel with
  | zero => intro h i n _ _ _ hf; omega
  | succ fuel ih =>
    intro h i n hb hn hi hf
    have hc0 : (c : Int) ≠ 0 := by omega
    have hdiv : wrapInt ((n : Int).tdiv (c : Int)) = ((n / c : Nat) : Int) := by
      rw [← Int.ofNat_tdiv]
      apply wrapInt_of_isInt
      have h1 : ((n / c : Nat) : Int) ≤ (n : Int) := by exact_mod_cast Nat.div_le_self n c
      have h0 : (0 : Int) ≤ ((n / c : Nat) : Int) := Int.ofNat_nonneg _
      unfold isInt
      constructor <;> omega
    obtain ⟨sa, su, mx, ba, bs⟩ := h
    simp only at hb hi
    subst hb
    have hdz : n / c = 0 ↔ n < c := Nat.div_eq_zero_iff (by omega)
    by_cases hw : n / c = 0
    · have hlog : Nat.log c n = 0 := by
        rw [Nat.log_eq_zero_iff]; left
        exact hdz.mp hw
      by_cases hlen : bs.length ≤ i
      · have hl : bs.length = i := by omega
        simp [addSampleLoop, hc0, hdiv, hw, hlog, bumpAt, hl]
      · have hl : i + 1 - bs.length = 0 := by omega
        have hl2 : i < bs.length := by omega
        simp [addSampleLoop, hc0, hdiv, hw, hlog, bumpAt, hl, hlen, hl2]
    · have hlog : Nat.log c n = Nat.log c (n / c) + 1 :=
        Nat.log_of_one_lt_of_le (by omega) (by by_contra hlt; exact hw (hdz.mpr (by omega)))
      have hw2 : ((n / c : Nat) : Int) ≠ 0 := by exact_mod_cast hw
      have hn2 : ((n / c : Nat) : Int) < 2 ^ 63 := by
        have h1 : ((n / c : Nat) : Int) ≤ (n : Int) := by exact_mod_cast Nat.div_le_self n c
        omega
      by_cases hlen : bs.length ≤ i
      · have step := ih ⟨sa, su, mx, (c : Int), bs ++ [0]⟩ (i + 1) (n / c) rfl hn2
          (by simp; omega) (by omega)
        simp only [addSampleLoop, hlen, if_true, hc0, if_false, hdiv, hw2]
        rw [step, hlog, bumpAt_append_zero (by omega), Nat.add_right_comm i 1, Nat.add_assoc i]
      · have step := ih ⟨sa, su, mx, (c : Int), bs⟩ (i + 1) (n / c) rfl hn2
          (by simp; omega) (by omega)
        simp only [addSampleLoop, hlen, if_true, hc0, if_false, hdiv, hw2]
        rw [step, hlog, Nat.add_right_comm i 1, Nat.add_assoc i]

theorem length_bumpAt (k : Nat) (bs : List Int) :
    (bumpAt k bs).length = max bs.length (k + 1) := by
  unfold bumpAt
  simp only [List.length_set, List.length_append, List.length_replicate]
  omega

theorem getD_append_replicate_zero (bs : List Int) (m j : Nat) :
    (bs ++ List.replicate m 0).getD j 0 = bs.getD j 0 := by
  simp only [List.getD_eq_getElem?_getD]
  by_cases hj : j < bs.length
  · rw [List.getElem?_append_left hj]
  · rw [List.getElem?_append_right (by omega), List.getElem?_eq_none (l := bs) (by omega)]
    by_cases hm : j - bs.length < m <;> simp [List.getElem?_replicate, hm]

theorem getD_bumpAt (k j : Nat) (bs : List Int) :
    (bumpAt k bs).getD j 0 = if j = k then wrapInt (bs.getD k 0 + 1) else bs.getD j 0 := by
  unfold bumpAt
  rw [getD_append_replicate_zero]
  by_cases hjk : j = k
  · subst hjk
    have hlt : j < bs.length + (j + 1 - bs.length) := by omega
    simp [List.getD_eq_getElem?_getD, List.getElem?_set, hlt]
  · have hkj : ¬ k = j := fun e => hjk e.symm
    simp only [List.getD_eq_getElem?_getD, List.getElem?_set, hkj, if_false, hjk]
    simpa [List.getD_eq_getElem?_getD] using getD_append_replicate_zero bs (k + 1 - bs.length) j

theorem sum_set_getD (bs : List Int) (k : Nat) (x : Int) (hk : k < bs.length) :
    (bs.set k x).sum = bs.sum - bs.getD k 0 + x := by
  induction bs generalizing k with
  | nil => simp at hk
  | cons b bs ih =>
    cases k with
    | zero => simp [add_comm]
    | succ k =>
      have := ih k (by simpa using hk)
      simp only [List.set_cons_succ, List.sum_cons, this, List.getD_cons_succ]
      omega

theorem sum_bumpAt (k : Nat) (bs : List Int) :
    (bumpAt k bs).sum = bs.sum - bs.getD k 0 + wrapInt (bs.getD k 0 + 1) := by
  unfold bumpAt
  rw [sum_set_getD _ _ _ (by simp only [List.length_append, List.length_replicate]; omega),
    getD_append_replicate_zero]
  simp

theorem level_lt (b size : Int) (hb : 2 ≤ b) (h1 : size < 2 ^ 63) : level b size < 63 := by
  unfold level
  by_cases h0 : size.toNat = 0
  · simp [h0]
  · apply Nat.log_lt_of_lt_pow h0
    have h2 : size.toNat < 2 ^ 63 := by omega
    have h3 : 2 ^ 63 ≤ b.toNat ^ 63 := Nat.pow_le_pow_left (by omega) 63
    omega

theorem addSample_closed (fuel : Nat) (h : histogram) (size : Int)
    (hb : 2 ≤ h.base ∨ h.base ≤ 0) (h0 : 0 ≤ size) (h1 : size < 2 ^ 63) (hf : 64 ≤ fuel) :
    addSample fuel h size = .returned
      { samples := wrapInt (h.samples + 1)
        sum := wrapInt (h.sum + size)
        max := if size > h.max then size else h.max
        base := usedBase h.base
        buckets := bumpAt (level (usedBase h.base) size) h.buckets } := by
  have hu : 2 ≤ usedBase h.base := by
    unfold usedBase; split <;> omega
  have hlv := level_lt (usedBase h.base) size hu h1
  have hc : ((usedBase h.base).toNat : Int) = usedBase h.base := Int.toNat_of_nonneg (by omega)
  have hn : (size.toNat : Int) = size := Int.toNat_of_nonneg h0
  have key := addSampleLoop_closed (usedBase h.base).toNat (by omega) fuel
    { samples := wrapInt (h.samples + 1), sum := wrapInt (h.sum + size),
      max := if size > h.max then size else h.max, base := usedBase h.base,
      buckets := h.buckets } 0 size.toNat hc.symm (by omega) (Nat.zero_le _)
      (by unfold level at hlv; omega)
  rw [hn, Nat.zero_add] at key
  simp only at key
  have e : addSample fuel h size = addSampleLoop fuel
      { samples := wrapInt (h.samples + 1), sum := wrapInt (h.sum + size),
        max := if size > h.max then size else h.max, base := usedBase h.base,
        buckets := h.buckets } 0 size := by
    unfold addSample usedBase
    by_cases hm : size > h.max <;> by_cases hz : h.base ≤ 0 <;> simp [hm, hz]
  rw [e, key]
  rfl

theorem usedBase_ge (b : Int) (hb : 2 ≤ b ∨ b ≤ 0) : 2 ≤ usedBase b := by
  unfold usedBase; split <;> omega

theorem usedBase_of_ge {b : Int} (hb : 2 ≤ b) : usedBase b = b := by
  unfold usedBase; split <;> omega

theorem addSamples_closed (fuel : Nat) (hf : 64 ≤ fuel) :
    ∀ (xs : List Int) (h : histogram), (2 ≤ h.base ∨ h.base ≤ 0) → sizesOk xs →
      addSamples fuel h xs = .returned (xs.foldl addSampleSpec h) := by
  intro xs
  induction xs with
  | nil => intro h _ _; rfl
  | cons s rest ih =>
    intro h hb hxs
    have hs := hxs s (List.mem_cons_self _ _)
    have hrest : sizesOk rest := fun x hx => hxs x (List.mem_cons_of_mem _ hx)
    have e := addSample_closed fuel h s hb hs.1 hs.2 hf
    have hb2 : 2 ≤ (addSampleSpec h s).base ∨ (addSampleSpec h s).base ≤ 0 :=
      Or.inl (usedBase_ge h.base hb)
    have := ih (addSampleSpec h s) hb2 hrest
    simp only [addSamples, List.foldl_cons]
    rw [e]
    exact this

/-! ## The counting invariant -/

theorem getD_nonneg (bs : List Int) (hbs : ∀ x ∈ bs, 0 ≤ x) (j : Nat) : 0 ≤ bs.getD j 0 := by
  rw [List.getD_eq_getElem?_getD]
  by_cases hj : j < bs.length
  · rw [List.getElem?_eq_getElem hj]
    exact hbs _ (List.getElem_mem hj)
  · rw [List.getElem?_eq_none (by omega)]
    simp

theorem getD_le_sum (bs : List Int) (hbs : ∀ x ∈ bs, 0 ≤ x) (j : Nat) : bs.getD j 0 ≤ bs.sum := by
  rw [List.getD_eq_getElem?_getD]
  by_cases hj : j < bs.length
  · rw [List.getElem?_eq_getElem hj]
    exact List.single_le_sum hbs _ (List.getElem_mem hj)
  · rw [List.getElem?_eq_none (by omega)]
    simpa using List.sum_nonneg hbs

theorem mem_iff_getD (bs : List Int) (x : Int) (hx : x ∈ bs) : ∃ j, bs.getD j 0 = x := by
  obtain ⟨j, hj, e⟩ := List.getElem_of_mem hx
  exact ⟨j, by rw [List.getD_eq_getElem?_getD, List.getElem?_eq_getElem hj]; simpa using e⟩

theorem counted_step (h : histogram) (n : Nat) (hc : Counted h n)
    (hn : (n : Int) + 1 < 2 ^ 63) (size : Int) : Counted (addSampleSpec h size) (n + 1) := by
  obtain ⟨h1, h2, h3⟩ := hc
  have hw : ∀ k, wrapInt (h.buckets.getD k 0 + 1) = h.buckets.getD k 0 + 1 := by
    intro k
    apply wrapInt_of_isInt
    have a := getD_nonneg h.buckets h3 k
    have b := getD_le_sum h.buckets h3 k
    unfold isInt
    constructor <;> omega
  refine ⟨?_, ?_, ?_⟩
  · show wrapInt (h.samples + 1) = ((n + 1 : Nat) : Int)
    rw [h1, wrapInt_of_isInt]
    · push_cast; rfl
    · unfold isInt; constructor <;> omega
  · show (bumpAt _ h.buckets).sum = ((n + 1 : Nat) : Int)
    rw [sum_bumpAt, hw, h2]
    push_cast; omega
  · intro x hx
    obtain ⟨j, rfl⟩ := mem_iff_getD _ x hx
    show 0 ≤ (bumpAt _ h.buckets).getD j 0
    rw [getD_bumpAt]
    split
    · rw [hw]
      have a := getD_nonneg h.buckets h3 (level (usedBase h.base) size)
      omega
    · exact getD_nonneg h.buckets h3 j

theorem counted_foldl (xs : List Int) :
    ∀ (h : histogram) (n : Nat), Counted h n → ((n + xs.length : Nat) : Int) < 2 ^ 63 →
      Counted (xs.foldl addSampleSpec h) (n + xs.length) := by
  induction xs with
  | nil => intro h n hc _; simpa using hc
  | cons s rest ih =>
    intro h n hc hn
    simp only [List.length_cons] at hn
    have := ih (addSampleSpec h s) (n + 1)
      (counted_step h n hc (by push_cast at hn; omega) s)
      (by push_cast at hn ⊢; omega)
    simpa [List.length_cons, Nat.add_assoc, Nat.add_comm 1] using this

theorem wrapInt_congr {x y : Int} (hxy : x ≡ y [ZMOD 2 ^ 64]) : wrapInt x = wrapInt y := by
  unfold wrapInt
  have h : (x + 2 ^ 63) % 2 ^ 64 = (y + 2 ^ 63) % 2 ^ 64 := hxy.add_right (2 ^ 63)
  rw [h]

theorem wrapInt_zero : wrapInt 0 = 0 := by decide

theorem wrapped_sum_step (h : histogram) (hc : wrapInt h.buckets.sum = h.samples) (size : Int) :
    wrapInt (addSampleSpec h size).buckets.sum = (addSampleSpec h size).samples := by
  show wrapInt (bumpAt _ h.buckets).sum = wrapInt (h.samples + 1)
  rw [sum_bumpAt, ← hc]
  apply wrapInt_congr
  have h1 := wrapInt_modEq (h.buckets.getD (level (usedBase h.base) size) 0 + 1)
  have h2 := (wrapInt_modEq h.buckets.sum).symm
  have h3 := (Int.ModEq.refl (h.buckets.sum - h.buckets.getD (level (usedBase h.base) size) 0)).add h1
  have h4 := h2.add_right 1
  refine Int.ModEq.trans ?_ h4
  refine h3.trans ?_
  rw [show h.buckets.sum - h.buckets.getD (level (usedBase h.base) size) 0
    + (h.buckets.getD (level (usedBase h.base) size) 0 + 1) = h.buckets.sum + 1 by ring]

theorem wrapped_sum_foldl (xs : List Int) :
    ∀ (h : histogram), wrapInt h.buckets.sum = h.samples →
      wrapInt (xs.foldl addSampleSpec h).buckets.sum = (xs.foldl addSampleSpec h).samples := by
  induction xs with
  | nil => intro h hc; simpa using hc
  | cons s rest ih =>
    intro h hc
    exact ih (addSampleSpec h s) (wrapped_sum_step h hc s)

/-- C1: for a configured base `b ≥ 2` or `b ≤ 0` and a sequence of non-negative
sizes, folding `addSample` over any prefix of the sequence from the fresh
`histogram{base: b}` returns, and the bucket counts of the result add up to
`samples`: in Go's wrapping addition for every sequence, and as integers when
the sequence has fewer than `2^63` sizes. -/
theorem C1_bucket_sum_eq_samples (b : Int) (hb : 2 ≤ b ∨ b ≤ 0) (xs : List Int)
    (hxs : sizesOk xs) (fuel : Nat) (hf : 64 ≤ fuel) (ys : List Int) (hys : ys <+: xs) :
    ∃ h, addSamples fuel { base := b } ys = .returned h ∧
      wrapInt h.buckets.sum = h.samples ∧
      ((xs.length : Int) < 2 ^ 63 → h.buckets.sum = h.samples) := by
  have hys2 : sizesOk ys := fun s hs => hxs s (hys.subset hs)
  have hl : (ys.length : Int) ≤ (xs.length : Int) := by exact_mod_cast hys.length_le
  refine ⟨_, addSamples_closed fuel hf ys { base := b } hb hys2, ?_, ?_⟩
  · exact wrapped_sum_foldl ys { base := b } wrapInt_zero
  · intro hlen
    have hc := counted_foldl ys { base := b } 0 ⟨rfl, rfl, by simp⟩ (by simpa using by omega)
    rw [hc.1, hc.2.1]

theorem C1_bucket_sum_eq_samples_witness :
    ∃ h, addSamples 64 { base := 4 } [0, 3, 4] = .returned h ∧
      wrapInt h.buckets.sum = h.samples ∧
      ((([0, 3, 4, 16, 100] : List Int).length : Int) < 2 ^ 63 → h.buckets.sum = h.samples) :=
  C1_bucket_sum_eq_samples 4 (by decide) [0, 3, 4, 16, 100]
    (by unfold sizesOk; decide) 64 (by decide) [0, 3, 4] (by decide)

/-! ## Bucket levels -/

theorem level_pow (b : Int) (hb : 2 ≤ b) (k : Nat) : level b (b ^ k) = k := by
  obtain ⟨c, rfl⟩ : ∃ c : Nat, b = (c : Int) := ⟨b.toNat, (Int.toNat_of_nonneg (by omega)).symm⟩
  unfold level
  rw [← Nat.cast_pow, Int.toNat_natCast, Int.toNat_natCast]
  exact Nat.log_pow (by omega) k

theorem level_eq_zero_iff (b s : Int) (hb : 2 ≤ b) (hs : 0 ≤ s) : level b s = 0 ↔ s < b := by
  unfold level
  rw [Nat.log_eq_zero_iff]
  constructor
  · intro h; omega
  · intro h; left; omega

/-- C2: with base 4 the size 3 lies in `(4^0, 4^1]`, yet `addSample(3)` on the
fresh histogram counts it at bucket level 0 and creates no level 1. -/
theorem C2_size_three_counted_at_level_zero :
    (4 : Int) ^ (1 - 1) < 3 ∧ (3 : Int) ≤ 4 ^ 1 ∧
      ∀ fuel : Nat, addSample (fuel + 1) { base := 4 } 3
        = .returned { samples := 1, sum := 3, max := 3, base := 4, buckets := [1] } := by
  refine ⟨by decide, by decide, ?_⟩
  intro fuel
  rfl

/-- C3: for a base `b ≥ 2` and a size that is the power `b^k` (a Go `int`),
`addSample(b^k)` returns and has incremented the count of level `k` and of no
other level (a level beyond the end of the list counts as 0); the bucket list
reaches level `k` and is not extended further. -/
theorem C3_power_counted_at_its_level (b : Int) (hb : 2 ≤ b) (k : Nat)
    (hk : b ^ k < 2 ^ 63) (h : histogram) (hbase : h.base = b)
    (hcnt : isInt (h.buckets.getD k 0 + 1)) (fuel : Nat) (hf : 64 ≤ fuel) :
    ∃ h', addSample fuel h (b ^ k) = .returned h' ∧
      h'.buckets.getD k 0 = h.buckets.getD k 0 + 1 ∧
      (∀ j, j ≠ k → h'.buckets.getD j 0 = h.buckets.getD j 0) ∧
      h'.buckets.length = max h.buckets.length (k + 1) := by
  have hpos : 0 ≤ b ^ k := pow_nonneg (by omega) k
  refine ⟨_, addSample_closed fuel h (b ^ k) (Or.inl (by omega)) hpos hk hf, ?_, ?_, ?_⟩
  · show (bumpAt _ h.buckets).getD k 0 = _
    rw [hbase, usedBase_of_ge hb, level_pow b hb, getD_bumpAt, if_pos rfl, wrapInt_of_isInt hcnt]
  · intro j hj
    show (bumpAt _ h.buckets).getD j 0 = _
    rw [hbase, usedBase_of_ge hb, level_pow b hb, getD_bumpAt, if_neg hj]
  · show (bumpAt _ h.buckets).length = _
    rw [hbase, usedBase_of_ge hb, level_pow b hb, length_bumpAt]

theorem C3_power_counted_at_its_level_witness :
    ∃ h', addSample 64 { base := 4, buckets := [2, 1] } ((4 : Int) ^ 2) = .returned h' ∧
      h'.buckets.getD 2 0 = ([2, 1] : List Int).getD 2 0 + 1 ∧
      (∀ j, j ≠ 2 → h'.buckets.getD j 0 = ([2, 1] : List Int).getD j 0) ∧
      h'.buckets.length = max ([2, 1] : List Int).length (2 + 1) :=
  C3_power_counted_at_its_level 4 (by decide) 2 (by decide) { base := 4, buckets := [2, 1] } rfl
    (by decide) 64 (by decide)

/-- C4: for a base `b ≥ 2` and a size `0 ≤ s` (a Go `int`), `addSample(s)`
returns, and it has incremented the count of level 0 exactly when `s < b`;
for `s = 0` it has incremented level 0 and left every other level as it was. -/
theorem C4_level_zero_iff_below_base (b : Int) (hb : 2 ≤ b) (s : Int) (hs0 : 0 ≤ s)
    (hs1 : s < 2 ^ 63) (h : histogram) (hbase : h.base = b)
    (hcnt : isInt (h.buckets.getD 0 0 + 1)) (fuel : Nat) (hf : 64 ≤ fuel) :
    ∃ h', addSample fuel h s = .returned h' ∧
      (h'.buckets.getD 0 0 = h.buckets.getD 0 0 + 1 ↔ s < b) ∧
      (s = 0 → h'.buckets.getD 0 0 = h.buckets.getD 0 0 + 1 ∧
        ∀ j, j ≠ 0 → h'.buckets.getD j 0 = h.buckets.getD j 0) := by
  refine ⟨_, addSample_closed fuel h s (Or.inl (by omega)) hs0 hs1 hf, ?_, ?_⟩
  · show (bumpAt _ h.buckets).getD 0 0 = _ ↔ _
    rw [hbase, usedBase_of_ge hb, getD_bumpAt, ← level_eq_zero_iff b s hb hs0]
    by_cases hl : level b s = 0
    · rw [hl, if_pos rfl, wrapInt_of_isInt hcnt]
      simp
    · rw [if_neg (fun e => hl e.symm)]
      constructor
      · intro e; omega
      · intro e; exact absurd e hl
  · intro hz
    have hl : level b s = 0 := (level_eq_zero_iff b s hb hs0).mpr (by omega)
    constructor
    · show (bumpAt _ h.buckets).getD 0 0 = _
      rw [hbase, usedBase_of_ge hb, hl, getD_bumpAt, if_pos rfl, wrapInt_of_isInt hcnt]
    · intro j hj
      show (bumpAt _ h.buckets).getD j 0 = _
      rw [hbase, usedBase_of_ge hb, hl, getD_bumpAt, if_neg hj]

theorem C4_level_zero_iff_below_base_witness :
    ∃ h', addSample 64 { base := 4, buckets := [2, 1] } 0 = .returned h' ∧
      (h'.buckets.getD 0 0 = ([2, 1] : List Int).getD 0 0 + 1 ↔ (0 : Int) < 4) ∧
      ((0 : Int) = 0 → h'.buckets.getD 0 0 = ([2, 1] : List Int).getD 0 0 + 1 ∧
        ∀ j, j ≠ 0 → h'.buckets.getD j 0 = ([2, 1] : List Int).getD j 0) :=
  C4_level_zero_iff_below_base 4 (by decide) 0 (by decide) (by decide)
    { base := 4, buckets := [2, 1] } rfl (by decide) 64 (by decide)

/-! ## Running maximum, sum and base -/

theorem max_foldl_ge (xs : List Int) :
    ∀ h : histogram, h.max ≤ (xs.foldl addSampleSpec h).max ∧
      ∀ s ∈ xs, s ≤ (xs.foldl addSampleSpec h).max := by
  induction xs with
  | nil => intro h; simp
  | cons x rest ih =>
    intro h
    obtain ⟨h1, h2⟩ := ih (addSampleSpec h x)
    have hx : h.max ≤ (addSampleSpec h x).max ∧ x ≤ (addSampleSpec h x).max := by
      show h.max ≤ (if x > h.max then x else h.max) ∧ x ≤ (if x > h.max then x else h.max)
      split <;> constructor <;> omega
    refine ⟨by simpa using le_trans hx.1 h1, ?_⟩
    intro s hs
    rcases List.mem_cons.mp hs with rfl | hs
    · simpa using le_trans hx.2 h1
    · simpa using h2 s hs

theorem max_foldl_mem (xs : List Int) :
    ∀ h : histogram, (xs.foldl addSampleSpec h).max = h.max ∨
      (xs.foldl addSampleSpec h).max ∈ xs := by
  induction xs with
  | nil => intro h; simp
  | cons x rest ih =>
    intro h
    have hx : (addSampleSpec h x).max = h.max ∨ (addSampleSpec h x).max = x := by
      show (if x > h.max then x else h.max) = h.max ∨ (if x > h.max then x else h.max) = x
      split <;> simp
    rcases ih (addSampleSpec h x) with e | e
    · rcases hx with e2 | e2
      · left; simpa [e2] using e
      · right; simp only [List.foldl_cons, e, e2]; exact List.mem_cons_self _ _
    · right; exact List.mem_cons_of_mem _ (by simpa using e)

/-- C5: recording a sequence of non-negative sizes into a fresh histogram
(base `≥ 2` or `≤ 0`, `max` 0) returns; afterwards `max` is 0 for the empty
sequence and is the largest size of the sequence otherwise: it occurs in the
sequence and no size of the sequence exceeds it. -/
theorem C5_max_is_largest_size (b : Int) (hb : 2 ≤ b ∨ b ≤ 0) (xs : List Int)
    (hxs : sizesOk xs) (fuel : Nat) (hf : 64 ≤ fuel) :
    ∃ h, addSamples fuel { base := b } xs = .returned h ∧
      (xs = [] → h.max = 0) ∧
      (xs ≠ [] → h.max ∈ xs ∧ ∀ s ∈ xs, s ≤ h.max) := by
  refine ⟨_, addSamples_closed fuel hf xs { base := b } hb hxs, ?_, ?_⟩
  · rintro rfl; rfl
  · intro hne
    have hge := max_foldl_ge xs { base := b }
    refine ⟨?_, hge.2⟩
    rcases max_foldl_mem xs { base := b } with e | e
    · obtain ⟨x, hx⟩ := List.exists_mem_of_ne_nil xs hne
      have h1 := hge.2 x hx
      have h2 := (hxs x hx).1
      have e0 : (List.foldl addSampleSpec { base := b } xs).max = 0 := e
      have hx0 : x = 0 := by omega
      rw [e0, ← hx0]
      exact hx
    · exact e

theorem C5_max_is_largest_size_witness :
    ∃ h, addSamples 64 { base := 4 } [0, 3, 4, 16, 100] = .returned h ∧
      (([0, 3, 4, 16, 100] : List Int) = [] → h.max = 0) ∧
      (([0, 3, 4, 16, 100] : List Int) ≠ [] → h.max ∈ ([0, 3, 4, 16, 100] : List Int) ∧
        ∀ s ∈ ([0, 3, 4, 16, 100] : List Int), s ≤ h.max) :=
  C5_max_is_largest_size 4 (by decide) [0, 3, 4, 16, 100] (by unfold sizesOk; decide)
    64 (by decide)

theorem sum_nonneg_of_sizesOk (xs : List Int) (hxs : sizesOk xs) : 0 ≤ xs.sum :=
  List.sum_nonneg (fun x hx => (hxs x hx).1)

theorem sum_foldl (xs : List Int) :
    ∀ h : histogram, sizesOk xs → 0 ≤ h.sum → h.sum + xs.sum < 2 ^ 63 →
      (xs.foldl addSampleSpec h).sum = h.sum + xs.sum := by
  induction xs with
  | nil => intro h _ _ _; simp
  | cons x rest ih =>
    intro h hxs h0 h1
    have hx := hxs x (List.mem_cons_self _ _)
    have hrest : sizesOk rest := fun y hy => hxs y (List.mem_cons_of_mem _ hy)
    have hr := sum_nonneg_of_sizesOk rest hrest
    rw [List.sum_cons] at h1
    have e : (addSampleSpec h x).sum = h.sum + x := by
      show wrapInt (h.sum + x) = h.sum + x
      apply wrapInt_of_isInt
      unfold isInt
      constructor <;> omega
    have := ih (addSampleSpec h x) hrest (by omega) (by omega)
    rw [List.foldl_cons, this, e, List.sum_cons]
    omega

/-- C6: a call `addSample(size)` on a histogram whose counters have room
returns with `samples` one larger and `sum` larger by `size`; and recording a
sequence `xs` of non-negative sizes into a fresh histogram, with fewer than
`2^63` sizes adding up to less than `2^63` (no overflow), returns with
`samples = length xs` and `sum` the sum of `xs`. -/
theorem C6_samples_and_sum (b : Int) (hb : 2 ≤ b ∨ b ≤ 0) (xs : List Int) (hxs : sizesOk xs)
    (hlen : (xs.length : Int) < 2 ^ 63) (hsum : xs.sum < 2 ^ 63) (fuel : Nat) (hf : 64 ≤ fuel) :
    (∀ (h : histogram) (size : Int), (2 ≤ h.base ∨ h.base ≤ 0) → 0 ≤ size → size < 2 ^ 63 →
        isInt (h.samples + 1) → isInt (h.sum + size) →
        ∃ h', addSample fuel h size = .returned h' ∧
          h'.samples = h.samples + 1 ∧ h'.sum = h.sum + size) ∧
      ∃ h, addSamples fuel { base := b } xs = .returned h ∧
        h.samples = (xs.length : Int) ∧ h.sum = xs.sum := by
  constructor
  · intro h size hbase h0 h1 hsa hsu
    exact ⟨_, addSample_closed fuel h size hbase h0 h1 hf, wrapInt_of_isInt hsa,
      wrapInt_of_isInt hsu⟩
  · refine ⟨_, addSamples_closed fuel hf xs { base := b } hb hxs, ?_, ?_⟩
    · have hc := counted_foldl xs { base := b } 0 ⟨rfl, rfl, by simp⟩ (by simpa using hlen)
      simpa using hc.1
    · have := sum_foldl xs { base := b } hxs (le_refl _) (by simpa using hsum)
      simpa using this

theorem C6_samples_and_sum_witness :
    (∀ (h : histogram) (size : Int), (2 ≤ h.base ∨ h.base ≤ 0) → 0 ≤ size → size < 2 ^ 63 →
        isInt (h.samples + 1) → isInt (h.sum + size) →
        ∃ h', addSample 64 h size = .returned h' ∧
          h'.samples = h.samples + 1 ∧ h'.sum = h.sum + size) ∧
      ∃ h, addSamples 64 { base := 4 } [0, 3, 4, 16, 100] = .returned h ∧
        h.samples = (([0, 3, 4, 16, 100] : List Int).length : Int) ∧
        h.sum = ([0, 3, 4, 16, 100] : List Int).sum :=
  C6_samples_and_sum 4 (by decide) [0, 3, 4, 16, 100] (by unfold sizesOk; decide)
    (by decide) (by decide) 64 (by decide)

theorem base_foldl (xs : List Int) :
    ∀ h : histogram, xs ≠ [] → (xs.foldl addSampleSpec h).base = usedBase h.base := by
  induction xs with
  | nil => intro h hne; exact absurd rfl hne
  | cons x rest ih =>
    intro h _
    by_cases hr : rest = []
    · subst hr; rfl
    · rw [List.foldl_cons, ih _ hr]
      show usedBase (usedBase h.base) = usedBase h.base
      by_cases hz : h.base ≤ 0
      · simp [usedBase, hz]
      · simp [usedBase, hz]

/-- C7: for a configured base `b ≤ 0`, recording a sequence of non-negative
sizes into `histogram{base: b}` and into `histogram{base: 4}` both return,
with the same `samples`, `sum`, `max` and `buckets`; when the sequence is not
empty the `base` field is 4 in both results. -/
theorem C7_nonpositive_base_is_four (b : Int) (hb : b ≤ 0) (xs : List Int) (hxs : sizesOk xs)
    (fuel : Nat) (hf : 64 ≤ fuel) :
    ∃ h1 h2, addSamples fuel { base := b } xs = .returned h1 ∧
      addSamples fuel { base := 4 } xs = .returned h2 ∧
      h1.samples = h2.samples ∧ h1.sum = h2.sum ∧ h1.max = h2.max ∧ h1.buckets = h2.buckets ∧
      (xs ≠ [] → h1.base = 4 ∧ h2.base = 4) := by
  refine ⟨_, _, addSamples_closed fuel hf xs { base := b } (Or.inr hb) hxs,
    addSamples_closed fuel hf xs { base := 4 } (Or.inl (by decide)) hxs, ?_⟩
  have hu : usedBase b = 4 := by unfold usedBase; rw [if_pos hb]
  cases xs with
  | nil => exact ⟨rfl, rfl, rfl, rfl, fun hne => absurd rfl hne⟩
  | cons x rest =>
    have e : addSampleSpec { base := b } x = addSampleSpec { base := 4 } x := by
      unfold addSampleSpec
      simp only [hu]
      rfl
    have hb4 := base_foldl (x :: rest) { base := 4 } (by simp)
    simp only [List.foldl_cons] at hb4 ⊢
    rw [e]
    exact ⟨rfl, rfl, rfl, rfl, fun _ => ⟨hb4, hb4⟩⟩

theorem C7_nonpositive_base_is_four_witness :
    ∃ h1 h2, addSamples 64 { base := -3 } [0, 3, 4, 16, 100] = .returned h1 ∧
      addSamples 64 { base := 4 } [0, 3, 4, 16, 100] = .returned h2 ∧
      h1.samples = h2.samples ∧ h1.sum = h2.sum ∧ h1.max = h2.max ∧ h1.buckets = h2.buckets ∧
      (([0, 3, 4, 16, 100] : List Int) ≠ [] → h1.base = 4 ∧ h2.base = 4) :=
  C7_nonpositive_base_is_four (-3) (by decide) [0, 3, 4, 16, 100] (by unfold sizesOk; decide)
    64 (by decide)

/-- C8: recording the sizes 0, 3, 4, 16, 100 in that order into a fresh
histogram with base 4 returns with buckets `[2, 1, 1, 1]`, `samples = 5`,
`max = 100` and `sum = 123`, so that the mean `sum / samples` is 24.6. -/
theorem C8_end_to_end_base_four :
    ∀ fuel : Nat, ∃ h, addSamples (fuel + 4) { base := 4 } [0, 3, 4, 16, 100] = .returned h ∧
      h.buckets = [2, 1, 1, 1] ∧ h.samples = 5 ∧ h.max = 100 ∧ h.sum = 123 ∧
      (h.sum : ℚ) / (h.samples : ℚ) = 246 / 10 := by
  intro fuel
  refine ⟨{ samples := 5, sum := 123, max := 100, base := 4, buckets := [2, 1, 1, 1] },
    rfl, rfl, rfl, rfl, rfl, ?_⟩
  norm_num

/-! ## Splitting at the first colon -/

theorem IndexByte_eq_none (s : GoString) (c : UInt8) : IndexByte s c = none ↔ c ∉ s := by
  induction s with
  | nil => simp [IndexByte]
  | cons x xs ih =>
    by_cases hx : x = c
    · simp [IndexByte, hx]
    · have hx2 : ¬ c = x := fun e => hx e.symm
      simp [IndexByte, hx, hx2, ih]

theorem IndexByte_eq_some (s : GoString) (c : UInt8) :
    ∀ m, IndexByte s c = some m →
      s.take m = s.takeWhile (· != c) ∧ s.drop (m + 1) = (s.dropWhile (· != c)).drop 1 := by
  induction s with
  | nil => intro m h; simp [IndexByte] at h
  | cons x xs ih =>
    intro m h
    by_cases hx : x = c
    · simp only [IndexByte, hx, if_true, Option.some.injEq] at h
      subst h
      simp [hx]
    · simp only [IndexByte, hx, if_false, Option.map_eq_some'] at h
      obtain ⟨k, hk, rfl⟩ := h
      obtain ⟨h1, h2⟩ := ih k hk
      simp [hx, h1, h2]

theorem SplitN_two (s : GoString) :
    SplitN s colon 2 = match IndexByte s colon with
      | none => [s]
      | some m => [s.take m, s.drop (m + 1)] := by
  cases s with
  | nil => rfl
  | cons x xs =>
    have e : min 2 ((x :: xs).length + 1) - 1 = 1 := by
      simp only [List.length_cons]; omega
    unfold SplitN
    rw [if_neg (by decide), e]
    simp only [genSplit]

theorem parseDatabaseSpec_eq (s : GoString) :
    parseDatabaseSpec s = match IndexByte s colon with
      | none => some ([], [], some "invalid backend:path spec")
      | some m =>
        if s.take m = [] ∨ s.drop (m + 1) = [] then
          some ([], [], some "backend and path must be non-empty")
        else some (s.take m, s.drop (m + 1), none) := by
  unfold parseDatabaseSpec
  rw [SplitN_two]
  cases IndexByte s colon <;> rfl

/-- C9: for every string `s`, `parseDatabaseSpec(s)` returns (without panic),
and it returns an error exactly when `s` has no colon, or the part before the
first colon is empty, or the part after the first colon is empty; with an
error the returned backend and path are both the empty string. -/
theorem C9_parse_error_iff_malformed (s : GoString) :
    ∃ backend path err, parseDatabaseSpec s = some (backend, path, err) ∧
      (err.isSome ↔ (colon ∉ s ∨ s.takeWhile (· != colon) = [] ∨
        (s.dropWhile (· != colon)).drop 1 = [])) ∧
      (err.isSome → backend = [] ∧ path = []) := by
  rw [parseDatabaseSpec_eq]
  cases hi : IndexByte s colon with
  | none =>
    have hc := (IndexByte_eq_none s colon).mp hi
    exact ⟨[], [], _, rfl, by simp [hc], fun _ => ⟨rfl, rfl⟩⟩
  | some m =>
    have hc : colon ∈ s := by
      by_contra hn
      rw [(IndexByte_eq_none s colon).mpr hn] at hi
      cases hi
    obtain ⟨h1, h2⟩ := IndexByte_eq_some s colon m hi
    simp only []
    rw [h1, h2]
    generalize s.takeWhile (· != colon) = p0
    generalize (s.dropWhile (· != colon)).drop 1 = p1
    by_cases he : p0 = [] ∨ p1 = []
    · rw [if_pos he]
      exact ⟨[], [], _, rfl, ⟨fun _ => Or.inr he, fun _ => rfl⟩, fun _ => ⟨rfl, rfl⟩⟩
    · rw [if_neg he]
      refine ⟨p0, p1, none, rfl, ⟨fun h => (by cases h), fun h => ?_⟩, fun h => (by cases h)⟩
      rcases h with h | h
      · exact absurd hc h
      · exact absurd h he

/-! ## Rounding to float64 -/

theorem roundHalfEven_intCast (k : Int) : roundHalfEven (k : ℚ) = k := by
  unfold roundHalfEven
  simp

theorem roundHalfEven_sub_le (m : ℚ) : |(roundHalfEven m : ℚ) - m| ≤ 1 / 2 := by
  have h1 := Int.floor_le m
  have h2 := Int.lt_floor_add_one m
  unfold roundHalfEven
  rw [abs_le]
  split_ifs with a b c
  · constructor <;> linarith
  · push_cast; constructor <;> linarith
  · constructor <;> linarith
  · push_cast; constructor <;> linarith

theorem log_two_eq {r : ℚ} {e : Int} (h1 : (2 : ℚ) ^ e ≤ r) (h2 : r < (2 : ℚ) ^ (e + 1)) :
    Int.log 2 r = e := by
  have hr : 0 < r := lt_of_lt_of_le (zpow_pos (by norm_num) e) h1
  have a : e ≤ Int.log 2 r := (Int.zpow_le_iff_le_log (by norm_num) hr).mp (by exact_mod_cast h1)
  have b : Int.log 2 r < e + 1 := (Int.lt_zpow_iff_log_lt (by norm_num) hr).mp (by exact_mod_cast h2)
  omega

theorem roundFloat64_of_pos {q : ℚ} (hq : 0 < q) :
    roundFloat64 q
      = (roundHalfEven (q / 2 ^ (Int.log 2 q - 52)) : ℚ) * 2 ^ (Int.log 2 q - 52) := by
  unfold roundFloat64
  rw [if_neg (ne_of_gt hq), abs_of_pos hq]

/-- A positive number with a significand of at most 53 bits is a float64. -/
theorem roundFloat64_representable (k : Int) (j : Int) (hk0 : 0 < k) (hk : k < 2 ^ 53) :
    roundFloat64 ((k : ℚ) * 2 ^ j) = (k : ℚ) * 2 ^ j := by
  have hkq : (0 : ℚ) < (k : ℚ) := by exact_mod_cast hk0
  have h2 : (0 : ℚ) < 2 := by norm_num
  have hpos : (0 : ℚ) < (k : ℚ) * 2 ^ j := mul_pos hkq (zpow_pos h2 j)
  have l1 : ((2 : ℕ) : ℚ) ^ Int.log 2 (k : ℚ) ≤ (k : ℚ) := Int.zpow_log_le_self (by norm_num) hkq
  have l2 : (k : ℚ) < ((2 : ℕ) : ℚ) ^ (Int.log 2 (k : ℚ) + 1) := Int.lt_zpow_succ_log_self (by norm_num) _
  push_cast at l1 l2
  have hk53 : (k : ℚ) < 2 ^ (53 : ℤ) := by
    have : (k : ℚ) < ((2 ^ 53 : Int) : ℚ) := by exact_mod_cast hk
    exact_mod_cast this
  have he0 : Int.log 2 (k : ℚ) < 53 :=
    (zpow_lt_zpow_iff_right₀ (by norm_num : (1 : ℚ) < 2)).mp (lt_of_le_of_lt l1 hk53)
  have hlog : Int.log 2 ((k : ℚ) * 2 ^ j) = Int.log 2 (k : ℚ) + j := by
    apply log_two_eq
    · rw [zpow_add₀ h2.ne']
      exact mul_le_mul_of_nonneg_right l1 (zpow_pos h2 j).le
    · rw [show Int.log 2 (k : ℚ) + j + 1 = (Int.log 2 (k : ℚ) + 1) + j by ring, zpow_add₀ h2.ne']
      exact mul_lt_mul_of_pos_right l2 (zpow_pos h2 j)
  rw [roundFloat64_of_pos hpos, hlog]
  obtain ⟨d, hd⟩ : ∃ d : ℕ, (d : Int) = 52 - Int.log 2 (k : ℚ) := ⟨(52 - Int.log 2 (k : ℚ)).toNat, Int.toNat_of_nonneg (by omega)⟩
  have hm : (k : ℚ) * 2 ^ j / 2 ^ (Int.log 2 (k : ℚ) + j - 52) = ((k * 2 ^ d : Int) : ℚ) := by
    rw [show Int.log 2 (k : ℚ) + j - 52 = j - (d : ℤ) by omega, zpow_sub₀ h2.ne']
    push_cast
    field_simp
    ring
  rw [hm, roundHalfEven_intCast]
  rw [show Int.log 2 (k : ℚ) + j - 52 = j - (d : ℤ) by omega, zpow_sub₀ h2.ne']
  push_cast
  field_simp
  ring

theorem roundFloat64_intCast (k : Int) (hk0 : 0 ≤ k) (hk : k < 2 ^ 53) :
    roundFloat64 (k : ℚ) = (k : ℚ) := by
  rcases eq_or_lt_of_le hk0 with h | h
  · subst h; simp [roundFloat64]
  · simpa using roundFloat64_representable k 0 h hk

theorem roundFloat64_sub_le {q : ℚ} (hq : 0 < q) :
    |roundFloat64 q - q| ≤ 2 ^ (Int.log 2 q - 53) := by
  have h2 : (0 : ℚ) < 2 := by norm_num
  have hu : (0 : ℚ) < 2 ^ (Int.log 2 q - 52) := zpow_pos h2 _
  rw [roundFloat64_of_pos hq]
  have e : (roundHalfEven (q / 2 ^ (Int.log 2 q - 52)) : ℚ) * 2 ^ (Int.log 2 q - 52) - q
      = ((roundHalfEven (q / 2 ^ (Int.log 2 q - 52)) : ℚ) - q / 2 ^ (Int.log 2 q - 52))
        * 2 ^ (Int.log 2 q - 52) := by
    field_simp
  rw [e, abs_mul, abs_of_pos hu]
  have := roundHalfEven_sub_le (q / 2 ^ (Int.log 2 q - 52))
  calc |(roundHalfEven (q / 2 ^ (Int.log 2 q - 52)) : ℚ) - q / 2 ^ (Int.log 2 q - 52)|
        * 2 ^ (Int.log 2 q - 52)
      ≤ 1 / 2 * 2 ^ (Int.log 2 q - 52) := mul_le_mul_of_nonneg_right this hu.le
    _ = 2 ^ (Int.log 2 q - 53) := by
      rw [show Int.log 2 q - 52 = (Int.log 2 q - 53) + 1 by ring, zpow_add₀ h2.ne']
      simp
      ring

theorem roundFloat64_sub_le_of_lt {q : ℚ} (hq : 0 < q) (h32 : q < 32) :
    |roundFloat64 q - q| ≤ 1 / 2 ^ 49 := by
  have hl : Int.log 2 q < 5 :=
    (Int.lt_zpow_iff_log_lt (by norm_num) hq).mp (by norm_num; linarith)
  refine le_trans (roundFloat64_sub_le hq) ?_
  have : (2 : ℚ) ^ (Int.log 2 q - 53) ≤ 2 ^ (-49 : ℤ) :=
    zpow_le_zpow_right₀ (by norm_num) (by omega)
  refine le_trans this (le_of_eq ?_)
  rw [zpow_neg]
  norm_num

theorem floor_roundFloat64_ratio (a n : Int) (ha0 : 0 ≤ a) (hn1 : 1 ≤ n) (hn : n < 2 ^ 49)
    (han : a ≤ 20 * n) :
    ⌊roundFloat64 ((a : ℚ) / (n : ℚ))⌋ = ⌊(a : ℚ) / (n : ℚ)⌋ ∧
      0 ≤ roundFloat64 ((a : ℚ) / (n : ℚ)) := by
  have hnq : (0 : ℚ) < (n : ℚ) := by exact_mod_cast (by omega : (0 : Int) < n)
  have haq : (0 : ℚ) ≤ (a : ℚ) := by exact_mod_cast ha0
  have hq0 : (0 : ℚ) ≤ (a : ℚ) / (n : ℚ) := div_nonneg haq hnq.le
  have hq20 : (a : ℚ) / (n : ℚ) ≤ 20 := by
    rw [div_le_iff₀ hnq]; exact_mod_cast han
  have hm := Int.floor_le ((a : ℚ) / (n : ℚ))
  have hm1 := Int.lt_floor_add_one ((a : ℚ) / (n : ℚ))
  have hf0 : 0 ≤ ⌊(a : ℚ) / (n : ℚ)⌋ := Int.floor_nonneg.mpr hq0
  have hf20 : ⌊(a : ℚ) / (n : ℚ)⌋ ≤ 20 := by
    have : ⌊(a : ℚ) / (n : ℚ)⌋ ≤ ⌊(20 : ℚ)⌋ := Int.floor_mono hq20
    simpa using this
  by_cases hint : (a : ℚ) / (n : ℚ) = (⌊(a : ℚ) / (n : ℚ)⌋ : ℚ)
  · have hr : roundFloat64 ((a : ℚ) / (n : ℚ)) = (a : ℚ) / (n : ℚ) := by
      rw [hint]
      exact roundFloat64_intCast _ hf0 (by omega)
    rw [hr]
    exact ⟨rfl, hq0⟩
  · have hlt : (⌊(a : ℚ) / (n : ℚ)⌋ : ℚ) < (a : ℚ) / (n : ℚ) := lt_of_le_of_ne hm (Ne.symm hint)
    have hqpos : (0 : ℚ) < (a : ℚ) / (n : ℚ) := lt_of_le_of_lt (by exact_mod_cast hf0) hlt
    have herr := roundFloat64_sub_le_of_lt hqpos (by linarith)
    rw [abs_le] at herr
    have hninv : (1 : ℚ) / 2 ^ 49 < 1 / (n : ℚ) := by
      apply one_div_lt_one_div_of_lt hnq
      have : (n : ℚ) < ((2 ^ 49 : Int) : ℚ) := by exact_mod_cast hn
      exact_mod_cast this
    -- the distance of the quotient to the integers on both sides is at least 1/n
    have hlow : (⌊(a : ℚ) / (n : ℚ)⌋ : ℚ) + 1 / (n : ℚ) ≤ (a : ℚ) / (n : ℚ) := by
      have h1 : (⌊(a : ℚ) / (n : ℚ)⌋ : ℚ) * (n : ℚ) < (a : ℚ) := (lt_div_iff₀ hnq).mp hlt
      have h2 : ⌊(a : ℚ) / (n : ℚ)⌋ * n < a := by exact_mod_cast h1
      have h3 : ⌊(a : ℚ) / (n : ℚ)⌋ * n + 1 ≤ a := by omega
      have h4 : (⌊(a : ℚ) / (n : ℚ)⌋ : ℚ) * (n : ℚ) + 1 ≤ (a : ℚ) := by exact_mod_cast h3
      rw [le_div_iff₀ hnq, add_mul, one_div, inv_mul_cancel₀ hnq.ne']
      exact h4
    have hhigh : (a : ℚ) / (n : ℚ) + 1 / (n : ℚ) ≤ (⌊(a : ℚ) / (n : ℚ)⌋ : ℚ) + 1 := by
      have h1 : (a : ℚ) < ((⌊(a : ℚ) / (n : ℚ)⌋ : ℚ) + 1) * (n : ℚ) := (div_lt_iff₀ hnq).mp hm1
      have h2 : a < (⌊(a : ℚ) / (n : ℚ)⌋ + 1) * n := by exact_mod_cast h1
      have h3 : a + 1 ≤ (⌊(a : ℚ) / (n : ℚ)⌋ + 1) * n := by omega
      have h4 : (a : ℚ) + 1 ≤ ((⌊(a : ℚ) / (n : ℚ)⌋ : ℚ) + 1) * (n : ℚ) := by exact_mod_cast h3
      rw [← add_div, div_le_iff₀ hnq]
      exact h4
    constructor
    · rw [Int.floor_eq_iff]
      constructor <;> linarith
    · have : (0 : ℚ) ≤ (⌊(a : ℚ) / (n : ℚ)⌋ : ℚ) := by exact_mod_cast hf0
      linarith

theorem fmul_twenty (v : Int) (hv0 : 0 ≤ v) (hv : v < 2 ^ 50) :
    fmul 20 (float64OfInt v) = 20 * (v : ℚ) := by
  unfold fmul float64OfInt
  rw [roundFloat64_intCast v hv0 (by omega)]
  rcases eq_or_lt_of_le hv0 with h | h
  · subst h; simp [roundFloat64]
  · have := roundFloat64_representable (5 * v) 2 (by omega) (by omega)
    have e : ((5 * v : Int) : ℚ) * 2 ^ (2 : ℤ) = 20 * (v : ℚ) := by
      push_cast; norm_num; ring
    rw [e] at this
    exact this

theorem barIncr_eq_floor (v n : Int) (hv0 : 0 ≤ v) (hvn : v ≤ n) (hn1 : 1 ≤ n)
    (hn : n < 2 ^ 49) :
    barIncr v n = some ⌊20 * (v : ℚ) / (n : ℚ)⌋ ∧
      0 ≤ ⌊20 * (v : ℚ) / (n : ℚ)⌋ ∧ ⌊20 * (v : ℚ) / (n : ℚ)⌋ ≤ 20 := by
  have hnq : (0 : ℚ) < (n : ℚ) := by exact_mod_cast (by omega : (0 : Int) < n)
  have key := floor_roundFloat64_ratio (20 * v) n (by omega) hn1 hn (by omega)
  push_cast at key
  have hq0 : (0 : ℚ) ≤ 20 * (v : ℚ) / (n : ℚ) :=
    div_nonneg (by have : (0 : ℚ) ≤ (v : ℚ) := by exact_mod_cast hv0
                   linarith) hnq.le
  have hq20 : 20 * (v : ℚ) / (n : ℚ) ≤ 20 := by
    rw [div_le_iff₀ hnq]
    have : (v : ℚ) ≤ (n : ℚ) := by exact_mod_cast hvn
    linarith
  have hf0 : 0 ≤ ⌊20 * (v : ℚ) / (n : ℚ)⌋ := Int.floor_nonneg.mpr hq0
  have hf20 : ⌊20 * (v : ℚ) / (n : ℚ)⌋ ≤ 20 := by
    have : ⌊20 * (v : ℚ) / (n : ℚ)⌋ ≤ ⌊(20 : ℚ)⌋ := Int.floor_mono hq20
    simpa using this
  refine ⟨?_, hf0, hf20⟩
  unfold barIncr fdiv
  rw [fmul_twenty v hv0 (by omega)]
  have hfn : float64OfInt n = (n : ℚ) := roundFloat64_intCast n (by omega) (by omega)
  rw [hfn, if_neg hnq.ne']
  simp only [truncToInt, if_pos key.2, key.1]
  rw [if_pos]
  unfold isInt
  constructor <;> omega

theorem barIncr_eq (v n : Int) :
    barIncr v n = if float64OfInt n = 0 then none
      else truncToInt (roundFloat64 (roundFloat64 (20 * float64OfInt v) / float64OfInt n)) := by
  unfold barIncr fdiv fmul
  split_ifs <;> rfl

theorem truncToInt_of_nonneg (q : ℚ) (t : Int) (hq : 0 ≤ q) (ht : ⌊q⌋ = t) (hi : isInt t) :
    truncToInt q = some t := by
  unfold truncToInt
  rw [if_pos hq, ht, if_pos hi]

theorem log_two_pow_54_sub_one : Int.log 2 (((2 ^ 54 - 1 : Int) : ℚ)) = 53 := by
  apply log_two_eq <;> norm_num

theorem floor_half_two_pow_54_sub_one :
    ⌊(((2 ^ 54 - 1 : Int) : ℚ)) / 2 ^ ((53 : ℤ) - 52)⌋ = 2 ^ 53 - 1 := by
  rw [Int.floor_eq_iff]
  constructor <;> norm_num

theorem roundHalfEven_half_two_pow_54_sub_one :
    roundHalfEven ((((2 ^ 54 - 1 : Int) : ℚ)) / 2 ^ ((53 : ℤ) - 52)) = 2 ^ 53 := by
  unfold roundHalfEven
  rw [floor_half_two_pow_54_sub_one]
  norm_num

/-- The conversion `float64(2^54 - 1)` rounds up to `2^54`. -/
theorem float64OfInt_two_pow_54_sub_one : float64OfInt (2 ^ 54 - 1) = 2 ^ 54 := by
  show roundFloat64 (((2 ^ 54 - 1 : Int) : ℚ)) = 2 ^ 54
  rw [roundFloat64_of_pos (by norm_num), log_two_pow_54_sub_one,
    roundHalfEven_half_two_pow_54_sub_one]
  norm_num

theorem float64OfInt_two_pow_54 : float64OfInt (2 ^ 54) = 2 ^ 54 := by
  have := roundFloat64_representable 1 54 (by norm_num) (by norm_num)
  show roundFloat64 (((2 ^ 54 : Int) : ℚ)) = 2 ^ 54
  norm_num at this ⊢
  exact this

theorem roundFloat64_twenty : roundFloat64 20 = 20 := by
  have := roundFloat64_intCast 20 (by norm_num) (by norm_num)
  simpa using this

theorem barIncr_two_pow_54_sub_one : barIncr (2 ^ 54 - 1) (2 ^ 54) = some 20 := by
  have h1 : roundFloat64 (20 * 2 ^ 54) = 20 * 2 ^ 54 := by
    have := roundFloat64_representable 5 56 (by norm_num) (by norm_num)
    norm_num at this ⊢
    exact this
  rw [barIncr_eq, float64OfInt_two_pow_54_sub_one, float64OfInt_two_pow_54, h1,
    if_neg (by norm_num), show (20 * 2 ^ 54 : ℚ) / 2 ^ 54 = 20 by norm_num, roundFloat64_twenty]
  exact truncToInt_of_nonneg 20 20 (by norm_num) (by simp) (by decide)

theorem barIncr_one_two_pow_54 : barIncr 1 (2 ^ 54) = some 0 := by
  have h0 : float64OfInt 1 = 1 := by
    have := roundFloat64_intCast 1 (by norm_num) (by norm_num)
    show roundFloat64 ((1 : Int) : ℚ) = 1
    simpa using this
  have h3 : roundFloat64 (20 / 2 ^ 54) = 20 / 2 ^ 54 := by
    have := roundFloat64_representable 5 (-52) (by norm_num) (by norm_num)
    rw [show ((5 : Int) : ℚ) * 2 ^ (-52 : ℤ) = 20 / 2 ^ 54 by rw [zpow_neg]; norm_num] at this
    exact this
  have hfl : ⌊(20 : ℚ) / 2 ^ 54⌋ = 0 := by
    rw [Int.floor_eq_iff]
    constructor <;> norm_num
  rw [barIncr_eq, h0, float64OfInt_two_pow_54, if_neg (by norm_num), mul_one,
    roundFloat64_twenty, h3]
  exact truncToInt_of_nonneg _ 0 (by norm_num) hfl (by decide)

/-! ## The bucket lines of the report -/

theorem flatten_replicate_singleton (k : Nat) (a : UInt8) :
    List.flatten (List.replicate k [a]) = List.replicate k a := by
  induction k with
  | zero => rfl
  | succ k ih => simp [List.replicate_succ, ih]

theorem Repeat_marker (t : Int) (ht : 0 ≤ t) :
    Repeat [marker] t = some (List.replicate t.toNat marker) := by
  unfold Repeat
  rw [if_neg (by omega), flatten_replicate_singleton]

theorem bucketLines_floor (n : Int) (hn1 : 1 ≤ n) (hn : n < 2 ^ 49) :
    ∀ (vs : List Int) (i : Nat), (∀ v ∈ vs, 0 ≤ v ∧ v ≤ n) →
      ∃ ls, bucketLines n i vs = some ls ∧ ∀ k, k < vs.length →
        ls[k]? = some (Line.bucket (i + k) (vs.getD k 0)
          (List.replicate ⌊20 * ((vs.getD k 0 : Int) : ℚ) / (n : ℚ)⌋.toNat marker)) := by
  intro vs
  induction vs with
  | nil => intro i _; exact ⟨[], rfl, fun k hk => absurd hk (by simp)⟩
  | cons v vs ih =>
    intro i hvs
    have hv := hvs v (List.mem_cons_self _ _)
    obtain ⟨hbar, hf0, _⟩ := barIncr_eq_floor v n hv.1 hv.2 hn1 hn
    obtain ⟨rest, hrest, hk⟩ := ih (i + 1) (fun x hx => hvs x (List.mem_cons_of_mem _ hx))
    refine ⟨Line.bucket i v (List.replicate ⌊20 * (v : ℚ) / (n : ℚ)⌋.toNat marker) :: rest,
      by simp only [bucketLines, hbar, Repeat_marker _ hf0, hrest], ?_⟩
    intro k hlt
    cases k with
    | zero => simp
    | succ k =>
      have := hk k (by simpa using hlt)
      simp only [List.getElem?_cons_succ, List.getD_cons_succ, this]
      rw [Nat.add_right_comm i 1 k, Nat.add_assoc i k 1]

/-- C10, for fewer than `2^49` samples: for a histogram reached by recording
at least one and fewer than `2^49` non-negative sizes, `WriteTo` returns, and
the line it
writes for bucket level `i` (after the four header lines) carries the level,
the count and a bar of exactly `⌊20 * buckets[i] / samples⌋` markers `'='`,
the quotient taken exactly; that number lies between 0 and 20. -/
theorem C10_bar_is_floor_below_two_pow_49 (b : Int) (hb : 2 ≤ b ∨ b ≤ 0) (xs : List Int)
    (hxs : sizesOk xs) (hne : xs ≠ []) (hlen : (xs.length : Int) < 2 ^ 49)
    (fuel : Nat) (hf : 64 ≤ fuel) :
    ∃ h out, addSamples fuel { base := b } xs = .returned h ∧ WriteTo h = some out ∧
      ∀ i, i < h.buckets.length →
        out[4 + i]? = some (Line.bucket i (h.buckets.getD i 0)
          (List.replicate ⌊20 * ((h.buckets.getD i 0 : Int) : ℚ) / (h.samples : ℚ)⌋.toNat
            marker)) ∧
        0 ≤ ⌊20 * ((h.buckets.getD i 0 : Int) : ℚ) / (h.samples : ℚ)⌋ ∧
        ⌊20 * ((h.buckets.getD i 0 : Int) : ℚ) / (h.samples : ℚ)⌋ ≤ 20 := by
  have hc := counted_foldl xs { base := b } 0 ⟨rfl, rfl, by simp⟩ (by simpa using by omega)
  obtain ⟨hs, hsum, hnn⟩ := hc
  rw [Nat.zero_add] at hs hsum
  have hpos : 0 < xs.length := List.length_pos.mpr hne
  have hn1 : (1 : Int) ≤ (xs.length : Int) := by exact_mod_cast hpos
  have hbound : ∀ v ∈ (xs.foldl addSampleSpec { base := b }).buckets,
      0 ≤ v ∧ v ≤ (xs.length : Int) := by
    intro v hv
    refine ⟨hnn v hv, ?_⟩
    rw [← hsum]
    exact List.single_le_sum hnn v hv
  obtain ⟨ls, hls, hk⟩ := bucketLines_floor (xs.length : Int) hn1 hlen _ 0 hbound
  refine ⟨xs.foldl addSampleSpec { base := b },
    [Line.n (xs.foldl addSampleSpec { base := b }).samples,
      Line.max (xs.foldl addSampleSpec { base := b }).max,
      Line.avg (fdiv (float64OfInt (xs.foldl addSampleSpec { base := b }).sum)
        (float64OfInt (xs.foldl addSampleSpec { base := b }).samples)),
      Line.base (xs.foldl addSampleSpec { base := b }).base] ++ ls,
    addSamples_closed fuel hf xs { base := b } hb hxs, ?_, ?_⟩
  · unfold WriteTo
    rw [← hs] at hls
    rw [hls]
  · intro i hi
    have h1 := hk i hi
    rw [Nat.zero_add] at h1
    have hv : (xs.foldl addSampleSpec { base := b }).buckets.getD i 0
        ∈ (xs.foldl addSampleSpec { base := b }).buckets := by
      rw [List.getD_eq_getElem?_getD, List.getElem?_eq_getElem hi]
      exact List.getElem_mem hi
    obtain ⟨_, hf0, hf20⟩ := barIncr_eq_floor _ (xs.length : Int) (hbound _ hv).1
      (hbound _ hv).2 hn1 hlen
    rw [hs]
    refine ⟨?_, hf0, hf20⟩
    rw [← h1]
    simp [Nat.add_comm 4 i]

theorem C10_bar_is_floor_below_two_pow_49_witness :
    ∃ h out, addSamples 64 { base := 4 } [0, 3, 4, 16, 100] = .returned h ∧
      WriteTo h = some out ∧
      ∀ i, i < h.buckets.length →
        out[4 + i]? = some (Line.bucket i (h.buckets.getD i 0)
          (List.replicate ⌊20 * ((h.buckets.getD i 0 : Int) : ℚ) / (h.samples : ℚ)⌋.toNat
            marker)) ∧
        0 ≤ ⌊20 * ((h.buckets.getD i 0 : Int) : ℚ) / (h.samples : ℚ)⌋ ∧
        ⌊20 * ((h.buckets.getD i 0 : Int) : ℚ) / (h.samples : ℚ)⌋ ≤ 20 :=
  C10_bar_is_floor_below_two_pow_49 4 (by decide) [0, 3, 4, 16, 100]
    (by unfold sizesOk; decide) (by decide) (by decide) 64 (by decide)

/-! ## A run of `2^54` samples -/

theorem addSampleSpec_zero_base_four (c : Int) (hc0 : 0 ≤ c) (hc : c + 1 < 2 ^ 63) :
    addSampleSpec ⟨c, 0, 0, 4, [c]⟩ 0 = ⟨c + 1, 0, 0, 4, [c + 1]⟩ := by
  have hw : wrapInt (c + 1) = c + 1 := wrapInt_of_isInt (by unfold isInt; constructor <;> omega)
  have hl : level (usedBase 4) 0 = 0 := by simp [level]
  unfold addSampleSpec
  simp only [hl, hw]
  simp [bumpAt, hw, usedBase, wrapInt_zero]

theorem foldl_replicate_zero (n : Nat) :
    ∀ c : Int, 0 ≤ c → c + (n : Int) < 2 ^ 63 →
      (List.replicate n (0 : Int)).foldl addSampleSpec ⟨c, 0, 0, 4, [c]⟩
        = ⟨c + (n : Int), 0, 0, 4, [c + (n : Int)]⟩ := by
  induction n with
  | zero => intro c _ _; simp
  | succ n ih =>
    intro c hc0 hc
    push_cast at hc
    rw [List.replicate_succ, List.foldl_cons, addSampleSpec_zero_base_four c hc0 (by omega),
      ih (c + 1) (by omega) (by omega)]
    push_cast
    rw [add_assoc, add_comm 1 (n : Int)]

theorem foldl_two_pow_54 :
    (List.replicate (2 ^ 54 - 1) (0 : Int) ++ [4]).foldl addSampleSpec { base := 4 }
      = ⟨2 ^ 54, 4, 4, 4, [2 ^ 54 - 1, 1]⟩ := by
  have e : (2 ^ 54 - 1 : Nat) = (2 ^ 54 - 2) + 1 := by norm_num
  have first : addSampleSpec { base := 4 } 0 = ⟨1, 0, 0, 4, [1]⟩ := by
    have hl : level (usedBase 4) 0 = 0 := by simp [level]
    unfold addSampleSpec
    simp only [hl]
    decide
  have last : addSampleSpec ⟨2 ^ 54 - 1, 0, 0, 4, [2 ^ 54 - 1]⟩ 4
      = ⟨2 ^ 54, 4, 4, 4, [2 ^ 54 - 1, 1]⟩ := by
    have hl : level (usedBase 4) 4 = 1 := by
      have : usedBase 4 = 4 := by decide
      rw [this]
      show Nat.log 4 4 = 1
      rw [Nat.log_eq_iff (Or.inl (by norm_num))]
      norm_num
    unfold addSampleSpec
    simp only [hl]
    decide
  rw [List.foldl_append, List.foldl_cons, List.foldl_nil, e, List.replicate_succ,
    List.foldl_cons, first, foldl_replicate_zero (2 ^ 54 - 2) 1 (by norm_num) (by norm_num)]
  rw [show (1 : Int) + ((2 ^ 54 - 2 : Nat) : Int) = 2 ^ 54 - 1 by norm_num]
  exact last

theorem sizesOk_two_pow_54 : sizesOk (List.replicate (2 ^ 54 - 1) 0 ++ [4]) := by
  intro s hs
  rcases List.mem_append.mp hs with h | h
  · rw [List.eq_of_mem_replicate h]; decide
  · rw [List.mem_singleton.mp h]; decide

theorem addSamples_two_pow_54 :
    addSamples 64 { base := 4 } (List.replicate (2 ^ 54 - 1) 0 ++ [4])
      = .returned ⟨2 ^ 54, 4, 4, 4, [2 ^ 54 - 1, 1]⟩ := by
  have hrun := addSamples_closed 64 (le_refl _) _ { base := 4 } (Or.inl (by decide))
    sizesOk_two_pow_54
  rw [foldl_two_pow_54] at hrun
  exact hrun

theorem bucketLines_cons (n : Int) (i : Nat) (v : Int) (vs : List Int) (incr : Int)
    (rest : List Line) (h1 : barIncr v n = some incr) (h2 : 0 ≤ incr)
    (h3 : bucketLines n (i + 1) vs = some rest) :
    bucketLines n i (v :: vs)
      = some (Line.bucket i v (List.replicate incr.toNat marker) :: rest) := by
  simp only [bucketLines, h1, Repeat_marker _ h2, h3]

theorem WriteTo_of_bucketLines (h : histogram) (ls : List Line)
    (hls : bucketLines h.samples 0 h.buckets = some ls) :
    WriteTo h = some ([Line.n h.samples, Line.max h.max,
      Line.avg (fdiv (float64OfInt h.sum) (float64OfInt h.samples)), Line.base h.base] ++ ls) := by
  unfold WriteTo
  rw [hls]

theorem bucketLines_two_pow_54 :
    bucketLines (2 ^ 54) 0 [2 ^ 54 - 1, 1]
      = some [Line.bucket 0 (2 ^ 54 - 1) (List.replicate (20 : Int).toNat marker),
          Line.bucket 1 1 (List.replicate (0 : Int).toNat marker)] :=
  bucketLines_cons (2 ^ 54) 0 (2 ^ 54 - 1) [1] 20 _ barIncr_two_pow_54_sub_one (by decide)
    (bucketLines_cons (2 ^ 54) 1 1 [] 0 [] barIncr_one_two_pow_54 (by decide) rfl)

theorem WriteTo_two_pow_54 :
    WriteTo ⟨2 ^ 54, 4, 4, 4, [2 ^ 54 - 1, 1]⟩
      = some ([Line.n (2 ^ 54), Line.max 4,
          Line.avg (fdiv (float64OfInt 4) (float64OfInt (2 ^ 54))), Line.base 4]
        ++ [Line.bucket 0 (2 ^ 54 - 1) (List.replicate (20 : Int).toNat marker),
          Line.bucket 1 1 (List.replicate (0 : Int).toNat marker)]) :=
  WriteTo_of_bucketLines ⟨2 ^ 54, 4, 4, 4, [2 ^ 54 - 1, 1]⟩ _ bucketLines_two_pow_54

theorem floor_two_pow_54 : ⌊20 * (((2 ^ 54 - 1 : Int)) : ℚ) / ((2 ^ 54 : Int) : ℚ)⌋ = 19 := by
  rw [Int.floor_eq_iff]
  constructor <;> norm_num

/-- C10 fails for large sample counts: after `2^54 - 1` samples of size 0 and
one sample of size 4 with base 4, level 0 holds `2^54 - 1` of the `2^54` samples, so that
`⌊20 * buckets[0] / samples⌋ = 19`; but `float64(2^54 - 1)` is `2^54` and
`WriteTo` draws a bar of 20 markers for level 0. -/
theorem C10_bar_exceeds_floor_at_two_pow_54 :
    ∃ h out, addSamples 64 { base := 4 } (List.replicate (2 ^ 54 - 1) 0 ++ [4]) = .returned h ∧
      WriteTo h = some out ∧
      out[4 + 0]? = some (Line.bucket 0 (h.buckets.getD 0 0) (List.replicate 20 marker)) ∧
      ⌊20 * ((h.buckets.getD 0 0 : Int) : ℚ) / (h.samples : ℚ)⌋ = 19 :=
  ⟨_, _, addSamples_two_pow_54, WriteTo_two_pow_54, rfl, floor_two_pow_54⟩

/-! ## The loop while it runs -/

theorem wrapInt_tdiv (v c : Int) (hc : 1 ≤ c) (h0 : 0 ≤ v) (h1 : v < 2 ^ 63) :
    wrapInt (v.tdiv c) = v / c ∧ 0 ≤ v / c ∧ v / c ≤ v ∧ v / c * c ≤ v := by
  have e : v.tdiv c = v / c := Int.tdiv_eq_ediv h0 (by omega)
  have a : 0 ≤ v / c := Int.ediv_nonneg h0 (by omega)
  have b : v / c ≤ v := Int.ediv_le_self c h0
  have d : v / c * c ≤ v := Int.ediv_mul_le v (by omega)
  refine ⟨?_, a, b, d⟩
  rw [e]
  exact wrapInt_of_isInt (by unfold isInt; constructor <;> omega)

theorem addSampleLoop_succ (fuel : Nat) (sa su mx c : Int) (bs : List Int) (i : Nat) (v : Int)
    (hc : 1 ≤ c) (h0 : 0 ≤ v) (h1 : v < 2 ^ 63) (hi : i ≤ bs.length) :
    addSampleLoop (fuel + 1) ⟨sa, su, mx, c, bs⟩ i v
      = if v / c = 0 then
          .returned ⟨sa, su, mx, c, (if bs.length ≤ i then bs ++ [0] else bs).set i
            (wrapInt ((if bs.length ≤ i then bs ++ [0] else bs).getD i 0 + 1))⟩
        else addSampleLoop fuel ⟨sa, su, mx, c, if bs.length ≤ i then bs ++ [0] else bs⟩
          (i + 1) (v / c) := by
  obtain ⟨e, _, _, _⟩ := wrapInt_tdiv v c hc h0 h1
  have hc0 : c ≠ 0 := by omega
  by_cases hl : bs.length ≤ i
  · have hl2 : i < bs.length + 1 := by omega
    by_cases hw : v / c = 0 <;> simp [addSampleLoop, hl, e, hw, hc0, hl2]
  · have hl2 : i < bs.length := by omega
    by_cases hw : v / c = 0 <;> simp [addSampleLoop, hl, e, hw, hc0, hl2]

theorem addSampleLoop_running (c : Int) (hc : 1 ≤ c) :
    ∀ (fuel : Nat) (h : histogram) (i : Nat) (v : Int) (h' : histogram) (i' : Nat) (v' : Int),
      h.base = c → 0 ≤ v → v < 2 ^ 63 → i ≤ h.buckets.length →
      addSampleLoop fuel h i v = .running h' i' v' →
      i' = i + fuel ∧ 0 ≤ v' ∧ v' * c ^ fuel ≤ v ∧ h'.base = c ∧ i' ≤ h'.buckets.length ∧
        (fuel ≠ 0 → 0 < v') := by
  intro fuel
  induction fuel with
  | zero =>
    intro h i v h' i' v' hb h0 h1 hi hr
    simp only [addSampleLoop, Outcome.running.injEq] at hr
    obtain ⟨rfl, rfl, rfl⟩ := hr
    simp [hb, h0, hi]
  | succ fuel ih =>
    intro h i v h' i' v' hb h0 h1 hi hr
    obtain ⟨sa, su, mx, ba, bs⟩ := h
    simp only at hb hi
    subst hb
    obtain ⟨e, a, b, d⟩ := wrapInt_tdiv v ba hc h0 h1
    rw [addSampleLoop_succ fuel sa su mx ba bs i v hc h0 h1 hi] at hr
    by_cases hw : v / ba = 0
    · rw [if_pos hw] at hr
      cases hr
    · rw [if_neg hw] at hr
      have hlen : i + 1 ≤ (if bs.length ≤ i then bs ++ [0] else bs).length := by
        split
        · simp; omega
        · omega
      obtain ⟨r1, r2, r3, r4, r5, r6⟩ := ih _ (i + 1) (v / ba) h' i' v' rfl a (by omega) hlen hr
      refine ⟨by omega, r2, ?_, r4, r5, ?_⟩
      · have hcp : 0 ≤ ba := by omega
        calc v' * ba ^ (fuel + 1) = v' * ba ^ fuel * ba := by ring
          _ ≤ v / ba * ba := Int.mul_le_mul_of_nonneg_right r3 hcp
          _ ≤ v := d
      · intro _
        by_cases hf : fuel = 0
        · subst hf
          simp only [addSampleLoop, Outcome.running.injEq] at hr
          obtain ⟨_, _, rfl⟩ := hr
          omega
        · exact r6 hf

theorem addSampleLoop_ne_fault (c : Int) (hc : 1 ≤ c) :
    ∀ (fuel : Nat) (h : histogram) (i : Nat) (v : Int),
      h.base = c → 0 ≤ v → v < 2 ^ 63 → i ≤ h.buckets.length →
      addSampleLoop fuel h i v ≠ .fault := by
  intro fuel
  induction fuel with
  | zero => intro h i v _ _ _ _ hr; simp [addSampleLoop] at hr
  | succ fuel ih =>
    intro h i v hb h0 h1 hi
    obtain ⟨sa, su, mx, ba, bs⟩ := h
    simp only at hb hi
    subst hb
    obtain ⟨e, a, b, d⟩ := wrapInt_tdiv v ba hc h0 h1
    rw [addSampleLoop_succ fuel sa su mx ba bs i v hc h0 h1 hi]
    by_cases hw : v / ba = 0
    · rw [if_pos hw]
      intro hr; cases hr
    · rw [if_neg hw]
      apply ih _ (i + 1) (v / ba) rfl a (by omega)
      split
      · simp; omega
      · show i + 1 ≤ bs.length
        omega

theorem addSample_eq_loop (fuel : Nat) (h : histogram) (size : Int) :
    addSample fuel h size = addSampleLoop fuel
      { samples := wrapInt (h.samples + 1), sum := wrapInt (h.sum + size),
        max := if size > h.max then size else h.max, base := usedBase h.base,
        buckets := h.buckets } 0 size := by
  unfold addSample usedBase
  by_cases hm : size > h.max <;> by_cases hz : h.base ≤ 0 <;> simp [hm, hz]

/-- C13: for a histogram whose base is `≥ 2` or `≤ 0` and a size `≥ 0` (a Go
`int`), `addSample(size)` returns with every step budget of at least 64, and
panics with none (no division by zero, no index out of range); while the loop
runs, after `n` iterations its index is `n` and its value `v` is positive with
`v * base^n ≤ size`, so that `v` falls at least by the factor `base ≥ 2` in
every iteration. -/
theorem C13_addSample_returns (h : histogram) (hb : 2 ≤ h.base ∨ h.base ≤ 0) (size : Int)
    (h0 : 0 ≤ size) (h1 : size < 2 ^ 63) :
    (∀ fuel, 64 ≤ fuel → ∃ h', addSample fuel h size = .returned h') ∧
      (∀ fuel, addSample fuel h size ≠ .fault) ∧
      (∀ n h' i v, addSample n h size = .running h' i v →
        i = n ∧ 2 ≤ h'.base ∧ v * h'.base ^ n ≤ size ∧ (n ≠ 0 → 0 < v)) := by
  have hu := usedBase_ge h.base hb
  refine ⟨fun fuel hf => ⟨_, addSample_closed fuel h size hb h0 h1 hf⟩, ?_, ?_⟩
  · intro fuel
    rw [addSample_eq_loop]
    exact addSampleLoop_ne_fault (usedBase h.base) (by omega) fuel _ 0 size rfl h0 h1
      (Nat.zero_le _)
  · intro n h' i v hr
    rw [addSample_eq_loop] at hr
    obtain ⟨r1, r2, r3, r4, r5, r6⟩ := addSampleLoop_running (usedBase h.base) (by omega) n _ 0
      size h' i v rfl h0 h1 (Nat.zero_le _) hr
    refine ⟨by omega, by omega, ?_, r6⟩
    rw [r4]; exact r3

theorem C13_addSample_returns_witness :
    (∀ fuel, 64 ≤ fuel → ∃ h', addSample fuel { base := 4, buckets := [2, 1] } 100
        = .returned h') ∧
      (∀ fuel, addSample fuel { base := 4, buckets := [2, 1] } 100 ≠ .fault) ∧
      (∀ n h' i v, addSample n { base := 4, buckets := [2, 1] } 100 = .running h' i v →
        i = n ∧ 2 ≤ h'.base ∧ v * h'.base ^ n ≤ 100 ∧ (n ≠ 0 → 0 < v)) :=
  C13_addSample_returns { base := 4, buckets := [2, 1] } (by decide) 100 (by decide) (by decide)


theorem addSampleLoop_base_one :
    ∀ (fuel : Nat) (sa su mx : Int) (bs : List Int) (i : Nat) (v : Int),
      1 ≤ v → v < 2 ^ 63 → i ≤ bs.length →
      ∃ h', addSampleLoop fuel ⟨sa, su, mx, 1, bs⟩ i v = .running h' (i + fuel) v ∧
        i + fuel ≤ h'.buckets.length ∧ bs.length ≤ h'.buckets.length := by
  intro fuel
  induction fuel with
  | zero => intro sa su mx bs i v _ _ hi; exact ⟨_, rfl, hi, le_refl _⟩
  | succ fuel ih =>
    intro sa su mx bs i v h0 h1 hi
    rw [addSampleLoop_succ fuel sa su mx 1 bs i v (le_refl _) (by omega) h1 hi,
      Int.ediv_one, if_neg (by omega)]
    have hlen : i + 1 ≤ (if bs.length ≤ i then bs ++ [0] else bs).length := by
      split
      · simp; omega
      · omega
    have hge : bs.length ≤ (if bs.length ≤ i then bs ++ [0] else bs).length := by
      split
      · simp
      · exact le_refl _
    obtain ⟨h', e1, e2, e3⟩ := ih sa su mx _ (i + 1) v h0 h1 hlen
    exact ⟨h', by rw [e1, Nat.add_right_comm i 1 fuel, Nat.add_assoc], by omega, by omega⟩

/-- C19: the base is not checked to be `≥ 2`: for a histogram with base 1 and
a size `≥ 1` (a Go `int`), `addSample` does not reach its return: for every
number `n` of iterations the loop is still running after them, at index `n`
with its value still `size` (the quotient by 1), and `buckets` has grown to at
least `n` entries. -/
theorem C19_base_one_never_returns (h : histogram) (hb : h.base = 1) (size : Int)
    (h0 : 1 ≤ size) (h1 : size < 2 ^ 63) (n : Nat) :
    ∃ h', addSample n h size = .running h' n size ∧ n ≤ h'.buckets.length ∧
      h.buckets.length ≤ h'.buckets.length := by
  have hu : usedBase h.base = 1 := by rw [hb]; decide
  rw [addSample_eq_loop, hu]
  obtain ⟨h', e1, e2, e3⟩ := addSampleLoop_base_one n (wrapInt (h.samples + 1))
    (wrapInt (h.sum + size)) (if size > h.max then size else h.max) h.buckets 0 size h0 h1
    (Nat.zero_le _)
  rw [Nat.zero_add] at e1 e2
  exact ⟨h', e1, e2, e3⟩

theorem C19_base_one_never_returns_witness :
    ∃ h', addSample 1000 { base := 1 } 3 = .running h' 1000 3 ∧ 1000 ≤ h'.buckets.length ∧
      ({ base := 1 } : histogram).buckets.length ≤ h'.buckets.length :=
  C19_base_one_never_returns { base := 1 } rfl 3 (by decide) (by decide) 1000

/-! ## The level of a size -/

theorem level_eq_iff (b s : Int) (hb : 2 ≤ b) (hs : 0 ≤ s) (k : Nat) :
    level b s = k ↔ s < b ^ (k + 1) ∧ (k = 0 ∨ b ^ k ≤ s) := by
  obtain ⟨c, rfl⟩ : ∃ c : Nat, b = (c : Int) := ⟨b.toNat, (Int.toNat_of_nonneg (by omega)).symm⟩
  obtain ⟨n, rfl⟩ : ∃ n : Nat, s = (n : Int) := ⟨s.toNat, (Int.toNat_of_nonneg hs).symm⟩
  have hc : 2 ≤ c := by omega
  unfold level
  rw [Int.toNat_natCast, Int.toNat_natCast]
  have cast1 : ((n : Int) < (c : Int) ^ (k + 1)) ↔ n < c ^ (k + 1) := by
    rw [← Nat.cast_pow]; exact Nat.cast_lt
  have cast2 : ((c : Int) ^ k ≤ (n : Int)) ↔ c ^ k ≤ n := by
    rw [← Nat.cast_pow]; exact Nat.cast_le
  rw [cast1, cast2]
  by_cases hk : k = 0
  · subst hk
    rw [Nat.log_eq_zero_iff]
    simp
    omega
  · rw [Nat.log_eq_iff (Or.inl hk)]
    constructor
    · rintro ⟨h1, h2⟩; exact ⟨h2, Or.inr h1⟩
    · rintro ⟨h2, h1 | h1⟩
      · exact absurd h1 hk
      · exact ⟨h1, h2⟩

/-- C18: for a base `b ≥ 2` and a size `0 ≤ s` (a Go `int`) there is exactly one
level `k` with `s < b^(k+1)` and (`k = 0` or `b^k ≤ s`); it is `⌊log_b s⌋` (0 for
`s < b`), and `addSample(s)` returns having incremented the count of that
level (when the count has room) and of no other level. -/
theorem C18_level_is_floor_log (b : Int) (hb : 2 ≤ b) (s : Int) (hs0 : 0 ≤ s)
    (hs1 : s < 2 ^ 63) (h : histogram) (hbase : h.base = b) (fuel : Nat) (hf : 64 ≤ fuel) :
    (∃! k : Nat, s < b ^ (k + 1) ∧ (k = 0 ∨ b ^ k ≤ s)) ∧
      ∀ k : Nat, s < b ^ (k + 1) → (k = 0 ∨ b ^ k ≤ s) →
        k = Nat.log b.toNat s.toNat ∧ (s < b → k = 0) ∧
        ∃ h', addSample fuel h s = .returned h' ∧
          (isInt (h.buckets.getD k 0 + 1) →
            h'.buckets.getD k 0 = h.buckets.getD k 0 + 1) ∧
          ∀ j, j ≠ k → h'.buckets.getD j 0 = h.buckets.getD j 0 := by
  constructor
  · refine ⟨level b s, (level_eq_iff b s hb hs0 _).mp rfl, ?_⟩
    intro k hk
    exact ((level_eq_iff b s hb hs0 k).mpr hk).symm
  · intro k h1 h2
    have hk : level b s = k := (level_eq_iff b s hb hs0 k).mpr ⟨h1, h2⟩
    refine ⟨hk.symm, ?_, _, addSample_closed fuel h s (Or.inl (by omega)) hs0 hs1 hf, ?_, ?_⟩
    · intro hlt
      rw [← hk]
      exact (level_eq_zero_iff b s hb hs0).mpr hlt
    · intro hcnt
      show (bumpAt _ h.buckets).getD k 0 = _
      rw [hbase, usedBase_of_ge hb, hk, getD_bumpAt, if_pos rfl, wrapInt_of_isInt hcnt]
    · intro j hj
      show (bumpAt _ h.buckets).getD j 0 = _
      rw [hbase, usedBase_of_ge hb, hk, getD_bumpAt, if_neg hj]

theorem C18_level_is_floor_log_witness :
    (∃! k : Nat, (100 : Int) < 4 ^ (k + 1) ∧ (k = 0 ∨ (4 : Int) ^ k ≤ 100)) ∧
      ∀ k : Nat, (100 : Int) < 4 ^ (k + 1) → (k = 0 ∨ (4 : Int) ^ k ≤ 100) →
        k = Nat.log (4 : Int).toNat (100 : Int).toNat ∧ ((100 : Int) < 4 → k = 0) ∧
        ∃ h', addSample 64 { base := 4, buckets := [2, 1] } 100 = .returned h' ∧
          (isInt (([2, 1] : List Int).getD k 0 + 1) →
            h'.buckets.getD k 0 = ([2, 1] : List Int).getD k 0 + 1) ∧
          ∀ j, j ≠ k → h'.buckets.getD j 0 = ([2, 1] : List Int).getD j 0 :=
  C18_level_is_floor_log 4 (by decide) 100 (by decide) (by decide)
    { base := 4, buckets := [2, 1] } rfl 64 (by decide)


/-! ## Growth of the bucket list -/

theorem length_foldl (b : Int) (hb : 2 ≤ b) (xs : List Int) :
    ∀ h : histogram, h.base = b →
      (xs.foldl addSampleSpec h).buckets.length
        = xs.foldl (fun m s => max m (1 + level b s)) h.buckets.length := by
  induction xs with
  | nil => intro h _; rfl
  | cons x rest ih =>
    intro h hbase
    have hb2 : (addSampleSpec h x).base = b := by
      show usedBase h.base = b
      rw [hbase, usedBase_of_ge hb]
    rw [List.foldl_cons, List.foldl_cons, ih _ hb2]
    congr 1
    show (bumpAt _ h.buckets).length = _
    rw [hbase, usedBase_of_ge hb, length_bumpAt, Nat.add_comm]

theorem foldl_max_ge (g : Int → Nat) (xs : List Int) :
    ∀ m : Nat, m ≤ xs.foldl (fun m s => max m (g s)) m ∧
      ∀ s ∈ xs, g s ≤ xs.foldl (fun m s => max m (g s)) m := by
  induction xs with
  | nil => intro m; simp
  | cons x rest ih =>
    intro m
    obtain ⟨h1, h2⟩ := ih (max m (g x))
    refine ⟨by simp only [List.foldl_cons]; omega, ?_⟩
    intro s hs
    rcases List.mem_cons.mp hs with rfl | hs
    · simp only [List.foldl_cons]; omega
    · simpa using h2 s hs

theorem foldl_max_mem (g : Int → Nat) (xs : List Int) :
    ∀ m : Nat, xs.foldl (fun m s => max m (g s)) m = m ∨
      ∃ s ∈ xs, xs.foldl (fun m s => max m (g s)) m = g s := by
  induction xs with
  | nil => intro m; simp
  | cons x rest ih =>
    intro m
    rcases ih (max m (g x)) with e | ⟨s, hs, e⟩
    · rcases Nat.le_total m (g x) with hle | hle
      · right
        exact ⟨x, List.mem_cons_self _ _, by rw [List.foldl_cons, e]; omega⟩
      · left
        rw [List.foldl_cons, e]; omega
    · right
      exact ⟨s, List.mem_cons_of_mem _ hs, by rw [List.foldl_cons, e]⟩

theorem lastCounted_step (h : histogram) (n : Nat) (hc : Counted h n)
    (hn : (n : Int) + 1 < 2 ^ 63) (hl : LastCounted h) (size : Int) :
    LastCounted (addSampleSpec h size) := by
  intro _
  obtain ⟨h1, h2, h3⟩ := hc
  show 1 ≤ (bumpAt _ h.buckets).getD ((bumpAt _ h.buckets).length - 1) 0
  rw [getD_bumpAt, length_bumpAt]
  have hw : wrapInt (h.buckets.getD (level (usedBase h.base) size) 0 + 1)
      = h.buckets.getD (level (usedBase h.base) size) 0 + 1 := by
    apply wrapInt_of_isInt
    have a := getD_nonneg h.buckets h3 (level (usedBase h.base) size)
    have b := getD_le_sum h.buckets h3 (level (usedBase h.base) size)
    unfold isInt
    constructor <;> omega
  split
  · rw [hw]
    have a := getD_nonneg h.buckets h3 (level (usedBase h.base) size)
    omega
  · rename_i hne
    have hlt : level (usedBase h.base) size + 1 < h.buckets.length := by omega
    have hnil : h.buckets ≠ [] := by
      intro e; rw [e] at hlt; simp at hlt
    have := hl hnil
    rw [show max h.buckets.length (level (usedBase h.base) size + 1) - 1
      = h.buckets.length - 1 by omega]
    exact this

theorem lastCounted_foldl (xs : List Int) :
    ∀ (h : histogram) (n : Nat), Counted h n → ((n + xs.length : Nat) : Int) < 2 ^ 63 →
      LastCounted h → LastCounted (xs.foldl addSampleSpec h) := by
  induction xs with
  | nil => intro h n _ _ hl; exact hl
  | cons s rest ih =>
    intro h n hc hn hl
    simp only [List.length_cons] at hn
    push_cast at hn
    exact ih (addSampleSpec h s) (n + 1) (counted_step h n hc (by omega) s)
      (by push_cast; omega) (lastCounted_step h n hc (by omega) hl s)


/-- C15: buckets grow on demand. Recording a non-empty sequence of non-negative
sizes (fewer than `2^63`) into a fresh histogram with base `b ≥ 2` returns with
`len(buckets)` equal to 1 + the highest level `⌊log_b s⌋` of a recorded size,
and the last bucket counts at least one sample. A single `addSample(s)` returns
with the count of level `⌊log_b s⌋` incremented, `buckets` extended just to
that level when it was shorter and never shortened, and the count of every
other level unchanged. -/
theorem C15_buckets_grow_on_demand (b : Int) (hb : 2 ≤ b) (xs : List Int) (hxs : sizesOk xs)
    (hne : xs ≠ []) (hlen : (xs.length : Int) < 2 ^ 63) (fuel : Nat) (hf : 64 ≤ fuel) :
    (∃ h, addSamples fuel { base := b } xs = .returned h ∧
        (∃ s ∈ xs, h.buckets.length = 1 + level b s) ∧
        (∀ s ∈ xs, 1 + level b s ≤ h.buckets.length) ∧
        1 ≤ h.buckets.getD (h.buckets.length - 1) 0) ∧
      ∀ (h0 : histogram) (s : Int), h0.base = b → 0 ≤ s → s < 2 ^ 63 →
        ∃ h1, addSample fuel h0 s = .returned h1 ∧
          h1.buckets.getD (level b s) 0 = wrapInt (h0.buckets.getD (level b s) 0 + 1) ∧
          h1.buckets.length = max h0.buckets.length (1 + level b s) ∧
          h0.buckets.length ≤ h1.buckets.length ∧
          ∀ j, j ≠ level b s → h1.buckets.getD j 0 = h0.buckets.getD j 0 := by
  constructor
  · have hl : (xs.foldl addSampleSpec { base := b }).buckets.length
        = xs.foldl (fun m s => max m (1 + level b s)) 0 := length_foldl b hb xs { base := b } rfl
    have hge := foldl_max_ge (fun s => 1 + level b s) xs 0
    have hlast := lastCounted_foldl xs { base := b } 0 ⟨rfl, rfl, by simp⟩
      (by simpa using hlen) (fun hn => absurd rfl hn)
    refine ⟨_, addSamples_closed fuel hf xs { base := b } (Or.inl hb) hxs, ?_, ?_, ?_⟩
    · rcases foldl_max_mem (fun s => 1 + level b s) xs 0 with e | ⟨s, hs, e⟩
      · obtain ⟨x, hx⟩ := List.exists_mem_of_ne_nil xs hne
        have := hge.2 x hx
        rw [e] at this
        simp at this
      · exact ⟨s, hs, by rw [hl]; exact e⟩
    · intro s hs
      rw [hl]
      exact hge.2 s hs
    · apply hlast
      intro hnil
      obtain ⟨x, hx⟩ := List.exists_mem_of_ne_nil xs hne
      have h1 := hge.2 x hx
      rw [← hl, hnil] at h1
      simp at h1
  · intro h0 s hbase hs0 hs1
    refine ⟨_, addSample_closed fuel h0 s (Or.inl (by omega)) hs0 hs1 hf, ?_, ?_, ?_, ?_⟩
    · show (bumpAt _ h0.buckets).getD _ 0 = _
      rw [hbase, usedBase_of_ge hb, getD_bumpAt, if_pos rfl]
    · show (bumpAt _ h0.buckets).length = _
      rw [hbase, usedBase_of_ge hb, length_bumpAt, Nat.add_comm]
    · show _ ≤ (bumpAt _ h0.buckets).length
      rw [length_bumpAt]
      omega
    · intro j hj
      show (bumpAt _ h0.buckets).getD j 0 = _
      rw [hbase, usedBase_of_ge hb, getD_bumpAt, if_neg hj]

theorem C15_buckets_grow_on_demand_witness :
    (∃ h, addSamples 64 { base := 4 } [0, 3, 4, 16, 100] = .returned h ∧
        (∃ s ∈ ([0, 3, 4, 16, 100] : List Int), h.buckets.length = 1 + level 4 s) ∧
        (∀ s ∈ ([0, 3, 4, 16, 100] : List Int), 1 + level 4 s ≤ h.buckets.length) ∧
        1 ≤ h.buckets.getD (h.buckets.length - 1) 0) ∧
      ∀ (h0 : histogram) (s : Int), h0.base = 4 → 0 ≤ s → s < 2 ^ 63 →
        ∃ h1, addSample 64 h0 s = .returned h1 ∧
          h1.buckets.getD (level 4 s) 0 = wrapInt (h0.buckets.getD (level 4 s) 0 + 1) ∧
          h1.buckets.length = max h0.buckets.length (1 + level 4 s) ∧
          h0.buckets.length ≤ h1.buckets.length ∧
          ∀ j, j ≠ level 4 s → h1.buckets.getD j 0 = h0.buckets.getD j 0 :=
  C15_buckets_grow_on_demand 4 (by decide) [0, 3, 4, 16, 100] (by unfold sizesOk; decide)
    (by decide) (by decide) 64 (by decide)

/-! ## The two halves of a specification -/

theorem IndexByte_split (s : GoString) (c : UInt8) :
    ∀ m, IndexByte s c = some m → s = s.take m ++ c :: s.drop (m + 1) ∧ c ∉ s.take m := by
  induction s with
  | nil => intro m h; simp [IndexByte] at h
  | cons x xs ih =>
    intro m h
    by_cases hx : x = c
    · simp only [IndexByte, hx, if_true, Option.some.injEq] at h
      subst h
      simp [hx]
    · simp only [IndexByte, hx, if_false, Option.map_eq_some'] at h
      obtain ⟨k, hk, rfl⟩ := h
      obtain ⟨h1, h2⟩ := ih k hk
      have hx2 : ¬ c = x := fun e => hx e.symm
      constructor
      · simp only [List.take_succ_cons, List.drop_succ_cons, List.cons_append]
        rw [← h1]
      · simp [hx2, h2]

theorem IndexByte_append (backend path : GoString) (c : UInt8) (hc : c ∉ backend) :
    IndexByte (backend ++ c :: path) c = some backend.length := by
  induction backend with
  | nil => simp [IndexByte]
  | cons x xs ih =>
    have hx : ¬ x = c := fun e => hc (by simp [e])
    have hxs : c ∉ xs := fun e => hc (List.mem_cons_of_mem _ e)
    simp [IndexByte, hx, ih hxs]

/-- C20: when `parseDatabaseSpec(s)` succeeds with `(backend, path)`, then
`s = backend + ":" + path`, `backend` has no colon, and both are non-empty;
and for a non-empty `backend` without colon and a non-empty `path` (which may
hold colons), `parseDatabaseSpec(backend + ":" + path)` returns
`(backend, path)` with no error. -/
theorem C20_parse_splits_at_first_colon (s backend path : GoString) :
    (parseDatabaseSpec s = some (backend, path, none) →
        s = backend ++ colon :: path ∧ colon ∉ backend ∧ backend ≠ [] ∧ path ≠ []) ∧
      (backend ≠ [] → colon ∉ backend → path ≠ [] →
        parseDatabaseSpec (backend ++ colon :: path) = some (backend, path, none)) := by
  constructor
  · intro h
    rw [parseDatabaseSpec_eq] at h
    cases hi : IndexByte s colon with
    | none => rw [hi] at h; simp at h
    | some m =>
      rw [hi] at h
      simp only [] at h
      obtain ⟨h1, h2⟩ := IndexByte_split s colon m hi
      by_cases he : s.take m = [] ∨ s.drop (m + 1) = []
      · rw [if_pos he] at h; simp at h
      · rw [if_neg he] at h
        simp only [Option.some.injEq, Prod.mk.injEq, and_true] at h
        obtain ⟨rfl, rfl⟩ := h
        push_neg at he
        exact ⟨h1, h2, he.1, he.2⟩
  · intro hb hc hp
    rw [parseDatabaseSpec_eq, IndexByte_append backend path colon hc]
    simp only []
    have e1 : (backend ++ colon :: path).take backend.length = backend := by simp
    have e2 : (backend ++ colon :: path).drop (backend.length + 1) = path := by
      rw [← List.drop_drop]
      simp
    rw [e1, e2, if_neg (by push_neg; exact ⟨hb, hp⟩)]

theorem C20_parse_splits_at_first_colon_witness :
    parseDatabaseSpec ([97] ++ colon :: [98, 58, 99]) = some ([97], [98, 58, 99], none) ∧
      (([97] ++ colon :: [98, 58, 99] : GoString) = [97] ++ colon :: [98, 58, 99] ∧
        colon ∉ ([97] : GoString) ∧ ([97] : GoString) ≠ [] ∧ ([98, 58, 99] : GoString) ≠ []) :=
  ⟨(C20_parse_splits_at_first_colon ([97] ++ colon :: [98, 58, 99]) [97] [98, 58, 99]).2
      (by decide) (by decide) (by decide),
    (C20_parse_splits_at_first_colon ([97] ++ colon :: [98, 58, 99]) [97] [98, 58, 99]).1
      (by decide)⟩

/-! ## The report is written for every counted histogram -/

theorem roundFloat64_zero : roundFloat64 0 = 0 := by
  unfold roundFloat64
  rw [if_pos rfl]

theorem roundFloat64_near {q : ℚ} (hq : 0 < q) :
    q * (99 / 100) ≤ roundFloat64 q ∧ roundFloat64 q ≤ q * (101 / 100) := by
  have h2 : (0 : ℚ) < 2 := by norm_num
  have herr := roundFloat64_sub_le hq
  have hlog : ((2 : ℕ) : ℚ) ^ Int.log 2 q ≤ q := Int.zpow_log_le_self (by norm_num) hq
  push_cast at hlog
  have hsplit : (2 : ℚ) ^ (Int.log 2 q - 53) = 2 ^ Int.log 2 q / 2 ^ (53 : ℕ) := by
    rw [zpow_sub₀ h2.ne']
    norm_cast
  have hsmall : (2 : ℚ) ^ (Int.log 2 q - 53) ≤ q / 100 := by
    rw [hsplit]
    have hp : (0 : ℚ) < 2 ^ Int.log 2 q := zpow_pos h2 _
    calc (2 : ℚ) ^ Int.log 2 q / 2 ^ (53 : ℕ) ≤ 2 ^ Int.log 2 q / 100 := by
          apply div_le_div_of_nonneg_left hp.le (by norm_num) (by norm_num)
      _ ≤ q / 100 := by
          apply div_le_div_of_nonneg_right hlog (by norm_num)
  rw [abs_le] at herr
  constructor <;> linarith

theorem barIncr_bounded (v n : Int) (hv0 : 0 ≤ v) (hvn : v ≤ n) (hn1 : 1 ≤ n) :
    ∃ t, barIncr v n = some t ∧ 0 ≤ t ∧ t ≤ 20 := by
  have hnq : (0 : ℚ) < (n : ℚ) := by exact_mod_cast (by omega : (0 : Int) < n)
  have hvq : (0 : ℚ) ≤ (v : ℚ) := by exact_mod_cast hv0
  have hvnq : (v : ℚ) ≤ (n : ℚ) := by exact_mod_cast hvn
  obtain ⟨d1, d2⟩ := roundFloat64_near hnq
  have hd : (0 : ℚ) < float64OfInt n := by
    show (0 : ℚ) < roundFloat64 (n : ℚ)
    linarith
  rw [barIncr_eq, if_neg hd.ne']
  rcases eq_or_lt_of_le hv0 with h | h
  · subst h
    have e : roundFloat64 (roundFloat64 (20 * float64OfInt 0) / float64OfInt n) = 0 := by
      show roundFloat64 (roundFloat64 (20 * roundFloat64 ((0 : Int) : ℚ)) / float64OfInt n) = 0
      simp [roundFloat64_zero]
    rw [e]
    exact ⟨0, truncToInt_of_nonneg 0 0 (le_refl _) (by simp) (by decide), le_refl _, by decide⟩
  · have hvpos : (0 : ℚ) < (v : ℚ) := by exact_mod_cast h
    obtain ⟨a1, a2⟩ := roundFloat64_near hvpos
    have ha : (0 : ℚ) < float64OfInt v := by
      show (0 : ℚ) < roundFloat64 (v : ℚ)
      linarith
    have ha2 : float64OfInt v ≤ (v : ℚ) * (101 / 100) := a2
    obtain ⟨p1, p2⟩ := roundFloat64_near (mul_pos (by norm_num : (0 : ℚ) < 20) ha)
    have hp : (0 : ℚ) < roundFloat64 (20 * float64OfInt v) := by
      have := mul_pos (by norm_num : (0 : ℚ) < 20) ha
      linarith
    have hd1 : (n : ℚ) * (99 / 100) ≤ float64OfInt n := d1
    have hq : (0 : ℚ) < roundFloat64 (20 * float64OfInt v) / float64OfInt n := div_pos hp hd
    have hq2 : roundFloat64 (20 * float64OfInt v) / float64OfInt n ≤ 2061 / 100 := by
      rw [div_le_iff₀ hd]
      linarith
    obtain ⟨r1, r2⟩ := roundFloat64_near hq
    have hr0 : (0 : ℚ) ≤ roundFloat64 (roundFloat64 (20 * float64OfInt v) / float64OfInt n) := by
      linarith
    have hr21 : roundFloat64 (roundFloat64 (20 * float64OfInt v) / float64OfInt n) < 21 := by
      linarith
    have hf0 : 0 ≤ ⌊roundFloat64 (roundFloat64 (20 * float64OfInt v) / float64OfInt n)⌋ :=
      Int.floor_nonneg.mpr hr0
    have hf20 : ⌊roundFloat64 (roundFloat64 (20 * float64OfInt v) / float64OfInt n)⌋ ≤ 20 := by
      have : ⌊roundFloat64 (roundFloat64 (20 * float64OfInt v) / float64OfInt n)⌋ < 21 :=
        Int.floor_lt.mpr (by exact_mod_cast hr21)
      omega
    exact ⟨_, truncToInt_of_nonneg _ _ hr0 rfl (by unfold isInt; constructor <;> omega),
      hf0, hf20⟩


/-! ## The report of a reached histogram -/

theorem bucketLines_total (n : Int) (hn1 : 1 ≤ n) :
    ∀ (vs : List Int) (i : Nat), (∀ v ∈ vs, 0 ≤ v ∧ v ≤ n) →
      ∃ ls, bucketLines n i vs = some ls ∧ ls.length = vs.length ∧
        ∀ k, k < vs.length → ∃ bar, ls[k]? = some (Line.bucket (i + k) (vs.getD k 0) bar) := by
  intro vs
  induction vs with
  | nil => intro i _; exact ⟨[], rfl, rfl, fun k hk => absurd hk (by simp)⟩
  | cons v vs ih =>
    intro i hvs
    have hv := hvs v (List.mem_cons_self _ _)
    obtain ⟨t, hbar, ht0, _⟩ := barIncr_bounded v n hv.1 hv.2 hn1
    obtain ⟨rest, hrest, hlen, hk⟩ := ih (i + 1) (fun x hx => hvs x (List.mem_cons_of_mem _ hx))
    refine ⟨_, bucketLines_cons n i v vs t rest hbar ht0 hrest, by simp [hlen], ?_⟩
    intro k hlt
    cases k with
    | zero => exact ⟨List.replicate t.toNat marker, by simp⟩
    | succ k =>
      obtain ⟨bar, hb⟩ := hk k (by simpa using hlt)
      refine ⟨bar, ?_⟩
      simp only [List.getElem?_cons_succ, List.getD_cons_succ, hb]
      rw [Nat.add_right_comm i 1 k, Nat.add_assoc i k 1]

theorem foldl_nil_buckets (b : Int) :
    (([] : List Int).foldl addSampleSpec { base := b }).buckets = [] := rfl

theorem WriteTo_reached (b : Int) (xs : List Int) (hlen : (xs.length : Int) < 2 ^ 63) :
    ∃ ls, WriteTo (xs.foldl addSampleSpec { base := b })
        = some ([Line.n (xs.foldl addSampleSpec { base := b }).samples,
            Line.max (xs.foldl addSampleSpec { base := b }).max,
            Line.avg (fdiv (float64OfInt (xs.foldl addSampleSpec { base := b }).sum)
              (float64OfInt (xs.foldl addSampleSpec { base := b }).samples)),
            Line.base (xs.foldl addSampleSpec { base := b }).base] ++ ls) ∧
      ls.length = (xs.foldl addSampleSpec { base := b }).buckets.length ∧
      ∀ k, k < (xs.foldl addSampleSpec { base := b }).buckets.length →
        ∃ bar, ls[k]? = some (Line.bucket k
          ((xs.foldl addSampleSpec { base := b }).buckets.getD k 0) bar) := by
  have hc := counted_foldl xs { base := b } 0 ⟨rfl, rfl, by simp⟩ (by simpa using hlen)
  obtain ⟨hs, hsum, hnn⟩ := hc
  rw [Nat.zero_add] at hs hsum
  have key : ∃ ls, bucketLines (xs.length : Int) 0 (xs.foldl addSampleSpec { base := b }).buckets
      = some ls ∧ ls.length = (xs.foldl addSampleSpec { base := b }).buckets.length ∧
      ∀ k, k < (xs.foldl addSampleSpec { base := b }).buckets.length →
        ∃ bar, ls[k]? = some (Line.bucket (0 + k)
          ((xs.foldl addSampleSpec { base := b }).buckets.getD k 0) bar) := by
    cases xs with
    | nil => exact ⟨[], rfl, rfl, fun k hk => absurd hk (by simp)⟩
    | cons x rest =>
      apply bucketLines_total _ (by simp only [List.length_cons]; push_cast; omega)
      intro v hv
      refine ⟨hnn v hv, ?_⟩
      rw [← hsum]
      exact List.single_le_sum hnn v hv
  obtain ⟨ls, h1, h2, h3⟩ := key
  refine ⟨ls, ?_, h2, ?_⟩
  · rw [← hs] at h1
    exact WriteTo_of_bucketLines _ ls h1
  · intro k hk
    obtain ⟨bar, hb⟩ := h3 k hk
    rw [Nat.zero_add] at hb
    exact ⟨bar, hb⟩

/-- C11, with a line for every level: for a histogram reached by recording
non-negative sizes (fewer than `2^63`), `WriteTo` returns; its report is the
four header lines (n, max, avg, base) followed by one bucket line for every
level `0 .. len(buckets) - 1` in order, whatever the count of the level: the
number of bucket lines is `len(buckets)`. -/
theorem C11_one_line_per_bucket_level (b : Int) (hb : 2 ≤ b ∨ b ≤ 0) (xs : List Int)
    (hxs : sizesOk xs) (hlen : (xs.length : Int) < 2 ^ 63) (fuel : Nat) (hf : 64 ≤ fuel) :
    ∃ h out, addSamples fuel { base := b } xs = .returned h ∧ WriteTo h = some out ∧
      out.take 4 = [Line.n h.samples, Line.max h.max,
        Line.avg (fdiv (float64OfInt h.sum) (float64OfInt h.samples)), Line.base h.base] ∧
      out.length = 4 + h.buckets.length ∧
      ∀ i, i < h.buckets.length →
        ∃ bar, out[4 + i]? = some (Line.bucket i (h.buckets.getD i 0) bar) := by
  obtain ⟨ls, h1, h2, h3⟩ := WriteTo_reached b xs hlen
  refine ⟨_, _, addSamples_closed fuel hf xs { base := b } hb hxs, h1, by simp, ?_, ?_⟩
  · simp only [List.length_append, List.length_cons, List.length_nil, h2]
  · intro i hi
    obtain ⟨bar, hb⟩ := h3 i hi
    exact ⟨bar, by rw [← hb]; simp [Nat.add_comm 4 i]⟩

theorem C11_one_line_per_bucket_level_witness :
    ∃ h out, addSamples 64 { base := 4 } [0, 3, 4, 16, 100] = .returned h ∧
      WriteTo h = some out ∧
      out.take 4 = [Line.n h.samples, Line.max h.max,
        Line.avg (fdiv (float64OfInt h.sum) (float64OfInt h.samples)), Line.base h.base] ∧
      out.length = 4 + h.buckets.length ∧
      ∀ i, i < h.buckets.length →
        ∃ bar, out[4 + i]? = some (Line.bucket i (h.buckets.getD i 0) bar) :=
  C11_one_line_per_bucket_level 4 (by decide) [0, 3, 4, 16, 100] (by unfold sizesOk; decide)
    (by decide) 64 (by decide)

theorem addSamples_hundred :
    addSamples 64 { base := 4 } [100] = .returned ⟨1, 100, 100, 4, [0, 0, 0, 1]⟩ := by
  decide

theorem foldl_hundred :
    ([100] : List Int).foldl addSampleSpec { base := 4 } = ⟨1, 100, 100, 4, [0, 0, 0, 1]⟩ := by
  have h1 := addSamples_closed 64 (le_refl _) [100] { base := 4 } (Or.inl (by decide))
    (by unfold sizesOk; decide)
  rw [addSamples_hundred] at h1
  exact (Outcome.returned.inj h1).symm

/-- C11 fails where a level is empty: recording the one size 100 with base 4
gives `buckets = [0, 0, 0, 1]`, a single occupied level, and `WriteTo` writes
four bucket lines, the first of them for level 0 with count 0. -/
theorem C11_line_for_an_empty_level :
    ∃ h out, addSamples 64 { base := 4 } [100] = .returned h ∧ WriteTo h = some out ∧
      (h.buckets.filter (fun v => 0 < v)).length = 1 ∧
      out.length = 4 + 4 ∧
      ∃ bar, out[4 + 0]? = some (Line.bucket 0 0 bar) := by
  obtain ⟨ls, h1, h2, h3⟩ := WriteTo_reached 4 [100] (by decide)
  rw [foldl_hundred] at h1 h2 h3
  obtain ⟨bar, hb⟩ := h3 0 (by decide)
  have hb2 : ls[0]? = some (Line.bucket 0 0 bar) := hb
  refine ⟨_, _, addSamples_hundred, h1, by decide, ?_, bar, ?_⟩
  · simp only [List.length_append, List.length_cons, List.length_nil, h2]
  · rw [← hb2]; simp

theorem WriteTo_fresh (b : Int) :
    WriteTo { base := b } = some [Line.n 0, Line.max 0, Line.avg none, Line.base b] := by
  have h0 : fdiv (float64OfInt 0) (float64OfInt 0) = none := by
    have e : float64OfInt 0 = 0 := by
      show roundFloat64 ((0 : Int) : ℚ) = 0
      simp [roundFloat64_zero]
    rw [e]
    unfold fdiv
    rw [if_pos rfl]
  rw [WriteTo_of_bucketLines { base := b } [] rfl]
  show some [Line.n 0, Line.max 0, Line.avg (fdiv (float64OfInt 0) (float64OfInt 0)),
    Line.base b] = _
  rw [h0]

/-- C14: in a histogram reached from a fresh one by recording non-negative
sizes (fewer than `2^63`), `buckets` is non-empty only if `samples > 0`, and
`WriteTo` returns without panic; for the fresh histogram (empty store) it
writes exactly the four header lines, with `n = 0` and a mean that is not a
number, and no bucket line. -/
theorem C14_report_of_empty_store (b : Int) (hb : 2 ≤ b ∨ b ≤ 0) (xs : List Int)
    (hxs : sizesOk xs) (hlen : (xs.length : Int) < 2 ^ 63) (fuel : Nat) (hf : 64 ≤ fuel) :
    (∃ h out, addSamples fuel { base := b } xs = .returned h ∧
        (h.buckets ≠ [] → 0 < h.samples) ∧ WriteTo h = some out) ∧
      addSamples fuel { base := b } [] = .returned { base := b } ∧
      WriteTo { base := b } = some [Line.n 0, Line.max 0, Line.avg none, Line.base b] := by
  refine ⟨?_, rfl, ?_⟩
  · obtain ⟨ls, h1, _, _⟩ := WriteTo_reached b xs hlen
    refine ⟨_, _, addSamples_closed fuel hf xs { base := b } hb hxs, ?_, h1⟩
    intro hne
    have hc := counted_foldl xs { base := b } 0 ⟨rfl, rfl, by simp⟩ (by simpa using hlen)
    rw [hc.1]
    cases xs with
    | nil => exact absurd rfl hne
    | cons x rest => simp only [List.length_cons]; push_cast; omega
  · exact WriteTo_fresh b

theorem C14_report_of_empty_store_witness :
    (∃ h out, addSamples 64 { base := 4 } [0, 3, 4, 16, 100] = .returned h ∧
        (h.buckets ≠ [] → 0 < h.samples) ∧ WriteTo h = some out) ∧
      addSamples 64 { base := 4 } [] = .returned { base := 4 } ∧
      WriteTo { base := 4 } = some [Line.n 0, Line.max 0, Line.avg none, Line.base 4] :=
  C14_report_of_empty_store 4 (by decide) [0, 3, 4, 16, 100] (by unfold sizesOk; decide)
    (by decide) 64 (by decide)


/-! ## The scan -/

theorem scanLoop_closed (escape : GoString → GoString) (fuel : Nat) (hf : 64 ≤ fuel) :
    ∀ (cursor : List (GoString × GoString)) (h : histogram), (2 ≤ h.base ∨ h.base ≤ 0) →
      (∀ p ∈ cursor, (p.2.length : Int) < 2 ^ 63) →
      scanLoop escape fuel h cursor
        = (cursor.map (fun p => Printed.key (keyLine escape p.1)),
            .returned ((cursor.map (fun p => (p.2.length : Int))).foldl addSampleSpec h)) := by
  intro cursor
  induction cursor with
  | nil => intro h _ _; rfl
  | cons p rest ih =>
    intro h hb hv
    obtain ⟨k, v⟩ := p
    have hv0 := hv (k, v) (List.mem_cons_self _ _)
    have e : addSample fuel h (v.length : Int) = .returned (addSampleSpec h (v.length : Int)) :=
      addSample_closed fuel h (v.length : Int) hb (Int.ofNat_nonneg _) hv0 hf
    have hb2 : 2 ≤ (addSampleSpec h (v.length : Int)).base ∨
        (addSampleSpec h (v.length : Int)).base ≤ 0 := Or.inl (usedBase_ge h.base hb)
    have := ih (addSampleSpec h (v.length : Int)) hb2
      (fun q hq => hv q (List.mem_cons_of_mem _ hq))
    simp only [scanLoop, e, this, List.map_cons, List.foldl_cons]

theorem sizesOk_lengths (cursor : List (GoString × GoString))
    (hv : ∀ p ∈ cursor, (p.2.length : Int) < 2 ^ 63) :
    sizesOk (cursor.map (fun p => (p.2.length : Int))) := by
  intro s hs
  obtain ⟨p, hp, rfl⟩ := List.mem_map.mp hs
  exact ⟨Int.ofNat_nonneg _, hv p hp⟩

theorem scanDriver_of_WriteTo (escape : GoString → GoString) (fuel : Nat) (flags : Flags)
    (cursor : List (GoString × GoString)) (keys : List Printed) (h : histogram)
    (report : List Line) (h1 : scanLoop escape fuel { base := flags.statBase } cursor
      = (keys, .returned h)) (h2 : WriteTo h = some report) :
    scanDriver escape fuel flags cursor none = (keys ++ report.map Printed.report, Exit.ok) := by
  unfold scanDriver
  rw [h1]
  simp only [h2]

theorem barIncr_one_one : barIncr 1 1 = some 20 := by
  have h := (barIncr_eq_floor 1 1 (by decide) (le_refl _) (le_refl _) (by decide)).1
  rw [h]
  norm_num

theorem WriteTo_one_sample :
    WriteTo ⟨1, 0, 0, 4, [1]⟩
      = some ([Line.n 1, Line.max 0, Line.avg (fdiv (float64OfInt 0) (float64OfInt 1)),
          Line.base 4] ++ [Line.bucket 0 1 (List.replicate (20 : Int).toNat marker)]) :=
  WriteTo_of_bucketLines ⟨1, 0, 0, 4, [1]⟩ _
    (bucketLines_cons 1 0 1 [] 20 [] barIncr_one_one (by decide) rfl)

/-- C17: the value of the flag `-bar` is not read. With `-bar 10` (and with any
other value `B`), the default base and a store holding one key with an empty
value, level 0 holds the one sample and is drawn with 20 markers, not with
`⌊B * 1 / 1⌋ = B` markers. -/
theorem C17_bar_flag_is_not_read (escape : GoString → GoString) (B : Int) :
    ∃ out, scanDriver escape 64 { statBars := B } [([107], [])] none = (out, Exit.ok) ∧
      out[5]? = some (Printed.report (Line.bucket 0 1 (List.replicate 20 marker))) := by
  have h1 : scanLoop escape 64 { base := ({ statBars := B } : Flags).statBase } [([107], [])]
      = ([Printed.key (keyLine escape [107])], .returned ⟨1, 0, 0, 4, [1]⟩) := rfl
  exact ⟨_, scanDriver_of_WriteTo escape 64 { statBars := B } _ _ _ _ h1 WriteTo_one_sample, rfl⟩

/-! ## Keys that can stand between backquotes -/

theorem DecodeRuneInString_ascii (c : UInt8) (rest : GoString) (hc : c.toNat < 0x80) :
    DecodeRuneInString (c :: rest) = (c.toNat, 1) := by
  simp [DecodeRuneInString, hc]

theorem DecodeRuneInString_wide (s0 : UInt8) (rest : GoString) (hc : 0x80 ≤ s0.toNat) :
    DecodeRuneInString (s0 :: rest) = (RuneError, 1) ∨
      (1 < (DecodeRuneInString (s0 :: rest)).2 ∧
        ∀ c ∈ (s0 :: rest).take (DecodeRuneInString (s0 :: rest)).2, 0x80 ≤ c.toNat) := by
  have h0 : ¬ s0.toNat < 0x80 := by omega
  generalize hd : DecodeRuneInString (s0 :: rest) = d
  have hlo' : 128 ≤ (if s0.toNat = 224 then 160 else if s0.toNat = 240 then 144 else 128) := by
    split_ifs <;> omega
  rcases rest with _ | ⟨s1, _ | ⟨s2, _ | ⟨s3, rest3⟩⟩⟩ <;>
    simp only [DecodeRuneInString, h0, if_false] at hd <;>
    generalize (if s0.toNat < 224 then 2 else if s0.toNat < 240 then 3 else 4) = sz at hd <;>
    generalize (if s0.toNat = 224 then 160 else if s0.toNat = 240 then 144 else 128) = lo
      at hd hlo' <;>
    generalize (if s0.toNat = 237 then 159 else if s0.toNat = 244 then 143 else 191) = hi
      at hd <;>
    split_ifs at hd <;>
    subst hd <;>
    first
      | (right
         dsimp only
         refine ⟨by omega, ?_⟩
         simp only [List.take_succ_cons, List.take_zero, List.take_nil, List.forall_mem_cons,
           List.not_mem_nil, false_implies, implies_true, and_true]
         omega)
      | exact Or.inl rfl


theorem CanBackquoteLoop_ascii (fuel : Nat) (c : UInt8) (rest : GoString)
    (hc : c.toNat < 0x80) :
    CanBackquoteLoop (fuel + 1) (c :: rest)
      = if (c.toNat < 0x20 ∧ c.toNat ≠ 0x09) ∨ c.toNat = 0x60 ∨ c.toNat = 0x7F then false
        else CanBackquoteLoop fuel rest := by
  have hr : ¬ c.toNat = RuneError := by unfold RuneError; omega
  simp only [CanBackquoteLoop, DecodeRuneInString_ascii c rest hc, List.isEmpty_cons,
    Bool.false_eq_true, if_false, gt_iff_lt, lt_self_iff_false, hr, List.drop_succ_cons,
    List.drop_zero]

theorem CanBackquote_of_plain (s : GoString) :
    (∀ c ∈ s, c.toNat = 9 ∨ (32 ≤ c.toNat ∧ c.toNat ≤ 126 ∧ c.toNat ≠ 96)) →
      ∀ fuel, s.length ≤ fuel → CanBackquoteLoop fuel s = true := by
  induction s with
  | nil => intro _ fuel _; cases fuel <;> simp [CanBackquoteLoop]
  | cons c rest ih =>
    intro hs fuel hf
    obtain ⟨f, rfl⟩ : ∃ f, fuel = f + 1 := ⟨fuel - 1, by simp at hf; omega⟩
    have hc := hs c (List.mem_cons_self _ _)
    rw [CanBackquoteLoop_ascii f c rest (by omega), if_neg (by omega)]
    exact ih (fun x hx => hs x (List.mem_cons_of_mem _ hx)) f (by simp at hf; omega)

theorem CanBackquote_of_bad (fuel : Nat) :
    ∀ s : GoString,
      (∃ c ∈ s, (c.toNat < 32 ∧ c.toNat ≠ 9) ∨ c.toNat = 96 ∨ c.toNat = 127) →
      CanBackquoteLoop fuel s = false := by
  induction fuel with
  | zero =>
    rintro s ⟨c, hc, _⟩
    cases s with
    | nil => simp at hc
    | cons => simp [CanBackquoteLoop]
  | succ fuel ih =>
    rintro s ⟨c, hc, hbad⟩
    cases s with
    | nil => simp at hc
    | cons s0 rest =>
      by_cases h0 : s0.toNat < 0x80
      · rw [CanBackquoteLoop_ascii fuel s0 rest h0]
        by_cases hb : (s0.toNat < 0x20 ∧ s0.toNat ≠ 0x09) ∨ s0.toNat = 0x60 ∨ s0.toNat = 0x7F
        · rw [if_pos hb]
        · rw [if_neg hb]
          apply ih
          rcases List.mem_cons.mp hc with rfl | h
          · exact absurd hbad hb
          · exact ⟨c, h, hbad⟩
      · rcases DecodeRuneInString_wide s0 rest (by omega) with e | ⟨hw, hall⟩
        · simp [CanBackquoteLoop, e]
        · have hdrop : c ∈ (s0 :: rest).drop (DecodeRuneInString (s0 :: rest)).2 := by
            have hmem : c ∈ (s0 :: rest).take (DecodeRuneInString (s0 :: rest)).2
                ++ (s0 :: rest).drop (DecodeRuneInString (s0 :: rest)).2 := by
              rw [List.take_append_drop]; exact hc
            rcases List.mem_append.mp hmem with h | h
            · have := hall c h
              omega
            · exact h
          have hrec := ih _ ⟨c, hdrop, hbad⟩
          simp only [CanBackquoteLoop, List.isEmpty_cons, Bool.false_eq_true, if_false,
            gt_iff_lt, hw, if_true, hrec]
          split_ifs <;> rfl


theorem DecodeRuneInString_feff (post : GoString) :
    DecodeRuneInString (0xEF :: 0xBB :: 0xBF :: post) = (0xFEFF, 3) := by
  simp [DecodeRuneInString, UInt8.size]

theorem CanBackquote_of_feff (pre : GoString) :
    (∀ c ∈ pre, c.toNat = 9 ∨ (32 ≤ c.toNat ∧ c.toNat ≤ 126 ∧ c.toNat ≠ 96)) →
      ∀ (post : GoString) (fuel : Nat), pre.length < fuel →
        CanBackquoteLoop fuel (pre ++ 0xEF :: 0xBB :: 0xBF :: post) = false := by
  induction pre with
  | nil =>
    intro _ post fuel hf
    obtain ⟨f, rfl⟩ : ∃ f, fuel = f + 1 := ⟨fuel - 1, by simp at hf; omega⟩
    simp [CanBackquoteLoop, DecodeRuneInString_feff]
  | cons c rest ih =>
    intro hs post fuel hf
    obtain ⟨f, rfl⟩ : ∃ f, fuel = f + 1 := ⟨fuel - 1, by simp at hf; omega⟩
    have hc := hs c (List.mem_cons_self _ _)
    rw [List.cons_append, CanBackquoteLoop_ascii f c _ (by omega), if_neg (by omega)]
    exact ih (fun x hx => hs x (List.mem_cons_of_mem _ hx)) post f (by simp at hf; omega)


/-! ## The lines of the keys -/

theorem keyLine_eq (escape : GoString → GoString) (key : GoString) :
    keyLine escape key
      = if CanBackquote key then backquote :: key ++ [backquote, newline]
        else dquote :: escape key ++ [dquote, newline] := by
  unfold keyLine fmtSharpQ
  split <;> simp

theorem scanDriver_key_lines (escape : GoString → GoString) (fuel : Nat) (hf : 64 ≤ fuel)
    (flags : Flags) (hb : 2 ≤ flags.statBase ∨ flags.statBase ≤ 0)
    (cursor : List (GoString × GoString))
    (hvals : ∀ p ∈ cursor, (p.2.length : Int) < 2 ^ 63) (closeErr : Option String) :
    ∃ rest, (scanDriver escape fuel flags cursor closeErr).1
        = cursor.map (fun p => Printed.key
            (if CanBackquote p.1 then backquote :: p.1 ++ [backquote, newline]
              else dquote :: escape p.1 ++ [dquote, newline])) ++ rest ∧
      ∀ x ∈ rest, ∃ l, x = Printed.report l := by
  have hloop := scanLoop_closed escape fuel hf cursor { base := flags.statBase } hb hvals
  simp only [keyLine_eq] at hloop
  unfold scanDriver
  rw [hloop]
  cases closeErr with
  | some e => exact ⟨[], by simp, by simp⟩
  | none =>
    cases hw : WriteTo ((cursor.map (fun p => (p.2.length : Int))).foldl addSampleSpec
        { base := flags.statBase }) with
    | none => exact ⟨[], by simp [hw], by simp⟩
    | some ls =>
      refine ⟨ls.map Printed.report, by simp [hw], ?_⟩
      intro x hx
      obtain ⟨l, _, rfl⟩ := List.mem_map.mp hx
      exact ⟨l, rfl⟩

theorem scanDriver_base_one (escape : GoString → GoString) (fuel : Nat) (flags : Flags)
    (hb : flags.statBase = 1) (k v : GoString) (rest : List (GoString × GoString))
    (hv1 : 1 ≤ (v.length : Int)) (hv2 : (v.length : Int) < 2 ^ 63) (closeErr : Option String) :
    scanDriver escape fuel flags ((k, v) :: rest) closeErr = ([], Exit.stuck) := by
  obtain ⟨h', e1, _, _⟩ := addSampleLoop_base_one fuel (wrapInt (0 + 1))
    (wrapInt (0 + (v.length : Int))) (if (v.length : Int) > 0 then (v.length : Int) else 0) []
    0 (v.length : Int) hv1 hv2 (Nat.zero_le _)
  have e2 : addSample fuel { base := flags.statBase } (v.length : Int)
      = .running h' (0 + fuel) (v.length : Int) := by
    rw [addSample_eq_loop, hb]
    exact e1
  unfold scanDriver
  simp only [scanLoop, e2]


theorem DecodeRuneInString_stray (b : UInt8) (post : GoString)
    (hb : (0x80 ≤ b.toNat ∧ b.toNat < 0xC2) ∨ 0xF4 < b.toNat) :
    DecodeRuneInString (b :: post) = (RuneError, 1) := by
  have h0 : ¬ b.toNat < 0x80 := by omega
  have h1 : b.toNat < 0xC2 ∨ 0xF4 < b.toNat := by omega
  simp only [DecodeRuneInString, h0, if_false, h1, if_true]

theorem CanBackquote_of_stray (pre : GoString) :
    (∀ c ∈ pre, c.toNat = 9 ∨ (32 ≤ c.toNat ∧ c.toNat ≤ 126 ∧ c.toNat ≠ 96)) →
      ∀ (b : UInt8) (post : GoString) (fuel : Nat),
        ((0x80 ≤ b.toNat ∧ b.toNat < 0xC2) ∨ 0xF4 < b.toNat) → pre.length < fuel →
        CanBackquoteLoop fuel (pre ++ b :: post) = false := by
  induction pre with
  | nil =>
    intro _ b post fuel hb hf
    obtain ⟨f, rfl⟩ : ∃ f, fuel = f + 1 := ⟨fuel - 1, by simp at hf; omega⟩
    simp [CanBackquoteLoop, DecodeRuneInString_stray b post hb]
  | cons c rest ih =>
    intro hs b post fuel hb hf
    obtain ⟨f, rfl⟩ : ∃ f, fuel = f + 1 := ⟨fuel - 1, by simp at hf; omega⟩
    have hc := hs c (List.mem_cons_self _ _)
    rw [List.cons_append, CanBackquoteLoop_ascii f c _ (by omega), if_neg (by omega)]
    exact ih (fun x hx => hs x (List.mem_cons_of_mem _ hx)) b post f hb (by simp at hf; omega)

/-- C12, with the quotes that `%#q` chooses: for a configured base `≥ 2` or
`≤ 0` and values shorter than `2^63` bytes, the scan prints one line per pair
of the cursor, in the order of the cursor and before anything else, whether or
not the close succeeds. The line of a key is the key itself between backquotes
and a newline when `strconv.CanBackquote(key)` holds, and otherwise a double
quote, the key escaped by `strconv.Quote`, a double quote and a newline.
`CanBackquote` holds for every key of printable ASCII bytes and tabs without
a backquote; it fails for every key that holds an ASCII control byte other
than tab, a backquote or DEL, and for a key that after plain bytes holds
U+FEFF or a byte that cannot start a UTF-8 sequence. -/
theorem C12_key_lines (escape : GoString → GoString) (fuel : Nat) (hf : 64 ≤ fuel)
    (flags : Flags) (hb : 2 ≤ flags.statBase ∨ flags.statBase ≤ 0)
    (cursor : List (GoString × GoString))
    (hvals : ∀ p ∈ cursor, (p.2.length : Int) < 2 ^ 63) (closeErr : Option String) :
    (∃ rest, (scanDriver escape fuel flags cursor closeErr).1
        = cursor.map (fun p => Printed.key
            (if CanBackquote p.1 then backquote :: p.1 ++ [backquote, newline]
              else dquote :: escape p.1 ++ [dquote, newline])) ++ rest ∧
        ∀ x ∈ rest, ∃ l, x = Printed.report l) ∧
      ∀ k : GoString,
        ((∀ c ∈ k, c.toNat = 9 ∨ (32 ≤ c.toNat ∧ c.toNat ≤ 126 ∧ c.toNat ≠ 96)) →
          CanBackquote k = true) ∧
        ((∃ c ∈ k, (c.toNat < 32 ∧ c.toNat ≠ 9) ∨ c.toNat = 96 ∨ c.toNat = 127) →
          CanBackquote k = false) ∧
        (∀ pre post : GoString,
          (∀ c ∈ pre, c.toNat = 9 ∨ (32 ≤ c.toNat ∧ c.toNat ≤ 126 ∧ c.toNat ≠ 96)) →
          k = pre ++ 0xEF :: 0xBB :: 0xBF :: post → CanBackquote k = false) ∧
        (∀ (pre post : GoString) (b : UInt8),
          (∀ c ∈ pre, c.toNat = 9 ∨ (32 ≤ c.toNat ∧ c.toNat ≤ 126 ∧ c.toNat ≠ 96)) →
          ((0x80 ≤ b.toNat ∧ b.toNat < 0xC2) ∨ 0xF4 < b.toNat) →
          k = pre ++ b :: post → CanBackquote k = false) := by
  refine ⟨scanDriver_key_lines escape fuel hf flags hb cursor hvals closeErr, ?_⟩
  intro k
  refine ⟨?_, ?_, ?_, ?_⟩
  · intro hk
    exact CanBackquote_of_plain k hk k.length (le_refl _)
  · intro hk
    exact CanBackquote_of_bad k.length k hk
  · rintro pre post hpre rfl
    exact CanBackquote_of_feff pre hpre post _ (by simp)
  · rintro pre post b hpre hbyte rfl
    exact CanBackquote_of_stray pre hpre b post _ hbyte (by simp)

theorem C12_key_lines_witness :
    (∃ rest, (scanDriver (fun s => s) 64 {} [([97], [1, 2, 3]), ([96], [])] none).1
        = ([([97], [1, 2, 3]), ([96], [])] : List (GoString × GoString)).map
            (fun p => Printed.key
              (if CanBackquote p.1 then backquote :: p.1 ++ [backquote, newline]
                else dquote :: (fun s => s) p.1 ++ [dquote, newline])) ++ rest ∧
        ∀ x ∈ rest, ∃ l, x = Printed.report l) ∧
      ∀ k : GoString,
        ((∀ c ∈ k, c.toNat = 9 ∨ (32 ≤ c.toNat ∧ c.toNat ≤ 126 ∧ c.toNat ≠ 96)) →
          CanBackquote k = true) ∧
        ((∃ c ∈ k, (c.toNat < 32 ∧ c.toNat ≠ 9) ∨ c.toNat = 96 ∨ c.toNat = 127) →
          CanBackquote k = false) ∧
        (∀ pre post : GoString,
          (∀ c ∈ pre, c.toNat = 9 ∨ (32 ≤ c.toNat ∧ c.toNat ≤ 126 ∧ c.toNat ≠ 96)) →
          k = pre ++ 0xEF :: 0xBB :: 0xBF :: post → CanBackquote k = false) ∧
        (∀ (pre post : GoString) (b : UInt8),
          (∀ c ∈ pre, c.toNat = 9 ∨ (32 ≤ c.toNat ∧ c.toNat ≤ 126 ∧ c.toNat ≠ 96)) →
          ((0x80 ≤ b.toNat ∧ b.toNat < 0xC2) ∨ 0xF4 < b.toNat) →
          k = pre ++ b :: post → CanBackquote k = false) :=
  C12_key_lines (fun s => s) 64 (by decide) {} (by decide) [([97], [1, 2, 3]), ([96], [])]
    (by decide) none

/-- C12 fails in two ways. With the default base the line printed for the key
`a` is the key between backquotes, not between double quotes. With base 1 and
a value that is not empty, no line is printed for the key, whatever the number
of iterations `addSample` is given. -/
theorem C12_plain_key_is_backquoted :
    (scanDriver (fun s => s) 64 {} [([97], [])] none).1[0]?
        = some (Printed.key [backquote, 97, backquote, newline]) ∧
      backquote ≠ dquote ∧
      ∀ fuel, (scanDriver (fun s => s) fuel { statBase := 1 } [([97], [1])] none).1 = [] := by
  obtain ⟨rest, hr, _⟩ := scanDriver_key_lines (fun s => s) 64 (by decide) {} (by decide)
    [([97], [])] (by decide) none
  have e : CanBackquote [97] = true := by decide
  refine ⟨?_, by decide, ?_⟩
  · rw [hr]
    simp only [List.map_cons, List.map_nil, List.cons_append, List.nil_append,
      List.getElem?_cons_zero, e, if_true]
  · intro fuel
    rw [scanDriver_base_one (fun s => s) fuel { statBase := 1 } rfl [97] [1] [] (by decide)
      (by decide) none]

/-- C16, for a base `≥ 2` or `≤ 0`: with the cursor a finite list of (key,
value) pairs whose close succeeds, values shorter than `2^63` bytes and fewer
than `2^63` pairs, the scan prints one key line per pair in the order of the
cursor (the key between backquotes when `strconv.CanBackquote` holds, else
double-quoted and escaped, and a newline), then the report of the histogram
that results from `addSample` on the byte lengths of the values in the same
order; the reported `n` is the number of pairs, and for the empty cursor only
the four header lines with `n = 0` are printed. -/
theorem C16_scan_prints_keys_then_report (escape : GoString → GoString) (fuel : Nat)
    (hf : 64 ≤ fuel) (flags : Flags) (hb : 2 ≤ flags.statBase ∨ flags.statBase ≤ 0)
    (cursor : List (GoString × GoString))
    (hvals : ∀ p ∈ cursor, (p.2.length : Int) < 2 ^ 63)
    (hlen : (cursor.length : Int) < 2 ^ 63) :
    ∃ h report,
      addSamples fuel { base := flags.statBase } (cursor.map (fun p => (p.2.length : Int)))
        = .returned h ∧
      WriteTo h = some report ∧
      scanDriver escape fuel flags cursor none
        = (cursor.map (fun p => Printed.key
              (if CanBackquote p.1 then backquote :: p.1 ++ [backquote, newline]
                else dquote :: escape p.1 ++ [dquote, newline]))
            ++ report.map Printed.report, Exit.ok) ∧
      report[0]? = some (Line.n (cursor.length : Int)) ∧
      (cursor = [] → scanDriver escape fuel flags cursor none
        = ([Line.n 0, Line.max 0, Line.avg none, Line.base flags.statBase].map Printed.report,
            Exit.ok)) := by
  have hok := sizesOk_lengths cursor hvals
  have hl : (((cursor.map (fun p => (p.2.length : Int))).length : Nat) : Int) < 2 ^ 63 := by
    simpa using hlen
  obtain ⟨ls, h1, _, _⟩ := WriteTo_reached flags.statBase _ hl
  have hc := counted_foldl (cursor.map (fun p => (p.2.length : Int)))
    { base := flags.statBase } 0 ⟨rfl, rfl, by simp⟩ (by simpa using hlen)
  have hloop := scanLoop_closed escape fuel hf cursor { base := flags.statBase } hb hvals
  simp only [keyLine_eq] at hloop
  refine ⟨_, _, addSamples_closed fuel hf _ { base := flags.statBase } hb hok, h1,
    scanDriver_of_WriteTo escape fuel flags cursor _ _ _ hloop h1, ?_, ?_⟩
  · rw [hc.1]
    simp
  · rintro rfl
    exact scanDriver_of_WriteTo escape fuel flags [] [] { base := flags.statBase } _ rfl
      (WriteTo_fresh flags.statBase)

theorem C16_scan_prints_keys_then_report_witness :
    ∃ h report,
      addSamples 64 { base := ({} : Flags).statBase }
          (([([107, 49], [1, 2, 3]), ([107, 50], [])] : List (GoString × GoString)).map
            (fun p => (p.2.length : Int)))
        = .returned h ∧
      WriteTo h = some report ∧
      scanDriver (fun s => s) 64 {} [([107, 49], [1, 2, 3]), ([107, 50], [])] none
        = (([([107, 49], [1, 2, 3]), ([107, 50], [])] : List (GoString × GoString)).map
              (fun p => Printed.key
                (if CanBackquote p.1 then backquote :: p.1 ++ [backquote, newline]
                  else dquote :: (fun s => s) p.1 ++ [dquote, newline]))
            ++ report.map Printed.report, Exit.ok) ∧
      report[0]? = some (Line.n
        ((([([107, 49], [1, 2, 3]), ([107, 50], [])] : List (GoString × GoString)).length
          : Nat) : Int)) ∧
      (([([107, 49], [1, 2, 3]), ([107, 50], [])] : List (GoString × GoString)) = [] →
        scanDriver (fun s => s) 64 {} [([107, 49], [1, 2, 3]), ([107, 50], [])] none
        = ([Line.n 0, Line.max 0, Line.avg none, Line.base ({} : Flags).statBase].map
            Printed.report, Exit.ok)) :=
  C16_scan_prints_keys_then_report (fun s => s) 64 (by decide) {} (by decide)
    [([107, 49], [1, 2, 3]), ([107, 50], [])] (by decide) (by decide)

/-- C16 fails for base 1: with `-base 1` and a cursor that yields the one pair
of key `k` and value `v`, whose close succeeds, `addSample(1)` does not return,
so that the scan prints no key line and no report, whatever the number of
iterations it is given. -/
theorem C16_base_one_prints_nothing :
    scanDriver (fun s => s) 64 { statBase := 1 } [([107], [118])] none = ([], Exit.stuck) ∧
      ∀ fuel, scanDriver (fun s => s) fuel { statBase := 1 } [([107], [118])] none
        = ([], Exit.stuck) :=
  ⟨scanDriver_base_one (fun s => s) 64 { statBase := 1 } rfl [107] [118] [] (by decide)
      (by decide) none,
    fun fuel => scanDriver_base_one (fun s => s) fuel { statBase := 1 } rfl [107] [118] []
      (by decide) (by decide) none⟩

end Dbkeys
